import Mathlib

/-!
Verification of the upb googlepb bridge (upb::googlepb::DefBuilder,
upb::googlepb::WriteHandlers, upb::googlepb::CodeCache) from
src/upb/bindings/googlepb/bridge.h and
src/upb/bindings/googlepb/noreflection.cc.

The repository ships the class declarations, the inline cache helpers
(DefBuilder::AddToCache / FindInCache, DefBuilder::NewMessageDef,
CodeCache::AddToCache / FindInCache) and the no-reflection stubs in source
form; the out-of-line construction routines (GetMessageDef, GetEnumDef,
GetMessageDefExpandWeak, GetMaybeUnfrozenMessageDef, NewFieldDef, Freeze,
CodeCache::GetWriteHandlers, GetMaybeUnfrozenWriteHandlers,
TryGetFieldPrototype) are modelled from the specification's description of
the construction protocol.  Descriptor identities and heap object
identities are represented as natural numbers; the definition heap is a
list indexed by allocation order, so that pointer identity of C++ objects
becomes index equality.
-/

namespace UpbBridge

/-- Static declared type of a proto field, as recorded by the external
FieldDescriptor.  Weak fields are declared with a scalar BYTES type even
though their true type is a submessage. -/
inductive FieldType where
  | scalar : FieldType
  | bytes : FieldType
  | message : Nat → FieldType
  | enumTy : Nat → FieldType
deriving DecidableEq

/-- External proto2::FieldDescriptor: field number, static declared type,
and whether the field is a weak field. -/
structure FieldDescriptor where
  number : Nat
  ftype : FieldType
  is_weak : Bool
deriving DecidableEq

/-- External proto2::Descriptor for a message type: its list of field
descriptors. -/
structure MessageDescriptor where
  fields : List FieldDescriptor
deriving DecidableEq

/-- External proto2::EnumDescriptor: list of value numbers. -/
structure EnumDescriptor where
  values : List Nat
deriving DecidableEq

/-- Association-list lookup keyed by descriptor identity (a natural
number).  Used for the schema pools and for both caches; mirrors
std::map::find on pointer keys. -/
def lookupL {α : Type} : List (Nat × α) → Nat → Option α
  | [], _ => none
  | (k, v) :: r, d => if k = d then some v else lookupL r d

/-- The external descriptor pool: message and enum descriptors addressed by
descriptor identity. -/
structure Schema where
  messages : List (Nat × MessageDescriptor)
  enums : List (Nat × EnumDescriptor)
deriving DecidableEq

/-- Resolve a descriptor identity in the pool (message pool first). -/
def Schema.lookup (sch : Schema) (d : Nat) : Option (MessageDescriptor ⊕ EnumDescriptor) :=
  match lookupL sch.messages d with
  | some md => some (Sum.inl md)
  | none => (lookupL sch.enums d).map Sum.inr

/-- A live proto2::Message instance: its descriptor identity together with
the live submessage instances held in its fields (keyed by field number).
Weak-field expansion consults exactly this runtime information. -/
inductive Message where
  | mk : Nat → List (Nat × Message) → Message

/-- Descriptor identity of a live instance. -/
def Message.descriptor : Message → Nat
  | .mk d _ => d

/-- Live submessage instances held by this instance, keyed by field
number. -/
def Message.subs : Message → List (Nat × Message)
  | .mk _ s => s

/-- The live submessage an instance holds in the given field, if any. -/
def Message.subLookup (m : Message) (n : Nat) : Option Message :=
  lookupL m.subs n

/-- Default instance of the message type with the given descriptor
identity, as produced by the message factory. -/
def defaultInstance (d : Nat) : Message := .mk d []

/-- Kind tag distinguishing the Def variants held in the cache. -/
inductive DefKind where
  | msg : DefKind
  | enumK : DefKind
deriving DecidableEq

/-- A upb FieldDef: field number, resolved type, and the heap address of
the sub-definition (MessageDef or EnumDef) it refers to, if any.  A
FieldDef is uniquely owned by its containing MessageDef and never
cached. -/
structure FieldDef where
  number : Nat
  ftype : FieldType
  subdef : Option Nat
deriving DecidableEq

/-- A cached upb Def (MessageDef or EnumDef) living on the builder's heap:
its kind, its frozen flag, and (for messages) its FieldDefs. -/
structure DefObj where
  kind : DefKind
  frozen : Bool
  fields : List FieldDef
deriving DecidableEq

/-- The DefBuilder state from bridge.h: the heap of Defs constructed so far
(addresses are allocation indices), the descriptor-to-Def cache
def_cache_, and the pending-freeze worklist to_freeze_. -/
structure DefBuilder where
  defs : List DefObj
  def_cache : List (Nat × Nat)
  to_freeze : List Nat
deriving DecidableEq

/-- A freshly constructed DefBuilder (empty cache, empty worklist). -/
def DefBuilder.init : DefBuilder := ⟨[], [], []⟩

/-- Construction failure modes.  assertFailed models UPB_ASSERT firing in
AddToCache; outOfFuel is the recursion budget of the shallow embedding;
badDescriptor is a dangling descriptor reference; weakResolveFailed is a
weak field whose live-instance type cannot be resolved. -/
inductive BuildErr where
  | outOfFuel : BuildErr
  | badDescriptor : BuildErr
  | assertFailed : BuildErr
  | weakResolveFailed : BuildErr
deriving DecidableEq

/-- DefBuilder::FindInCache from bridge.h (lines 142-147): look the
descriptor identity up in def_cache_. -/
def DefBuilder.FindInCache (st : DefBuilder) (d : Nat) : Option Nat :=
  lookupL st.def_cache d

/-- DefBuilder::AddToCache from bridge.h (lines 135-140):
UPB_ASSERT(def_cache_.find(proto2_descriptor) == def_cache_.end()), then
insert.  The assertion is modelled as the assertFailed error. -/
def DefBuilder.AddToCache (st : DefBuilder) (d : Nat) (a : Nat) : Except BuildErr DefBuilder :=
  if (st.FindInCache d).isSome then .error .assertFailed
  else .ok { st with def_cache := (d, a) :: st.def_cache }

/-- Append a freshly built FieldDef to the MessageDef at heap address a
(transfer of ownership of the new FieldDef into the containing
MessageDef). -/
def DefBuilder.appendField (st : DefBuilder) (a : Nat) (fd : FieldDef) : DefBuilder :=
  match st.defs.get? a with
  | some o => { st with defs := st.defs.set a { o with fields := o.fields ++ [fd] } }
  | none => st

/-- Modelled from the spec: the weak-field resolution step of NewFieldDef
(bridge.cc is not in the repository).  Given a field and an optional live
instance, produce the concrete field type: a weak field with a live
instance takes its submessage type from the instance's runtime type
information; otherwise the statically declared type is used.  A weak field
whose live-instance type cannot be resolved is a construction error. -/
def resolveFieldType (f : FieldDescriptor) (m : Option Message) : Except BuildErr FieldType :=
  match m with
  | some inst =>
    if f.is_weak then
      match inst.subLookup f.number with
      | some sub => .ok (.message sub.descriptor)
      | none => .error .weakResolveFailed
    else .ok f.ftype
  | none => .ok f.ftype

/-- Modelled from the spec: DefBuilder::NewFieldDef (bridge.cc is not in
the repository).  Always returns a freshly created, never cached FieldDef.
Resolves the field type (expanding a weak field via the live instance),
and for message/enum typed fields recurses through the supplied
construction function to obtain the sub-definition, passing the live
sub-instance down for message fields. -/
def NewFieldDef (recur : Nat → Option Message → DefBuilder → Except BuildErr (Nat × DefBuilder))
    (f : FieldDescriptor) (m : Option Message) (st : DefBuilder) :
    Except BuildErr (FieldDef × DefBuilder) :=
  match resolveFieldType f m with
  | .error e => .error e
  | .ok rt =>
    match rt with
    | .message t =>
      match recur t (m.bind fun inst => inst.subLookup f.number) st with
      | .error e => .error e
      | .ok (ta, st') => .ok (⟨f.number, rt, some ta⟩, st')
    | .enumTy t =>
      match recur t none st with
      | .error e => .error e
      | .ok (ta, st') => .ok (⟨f.number, rt, some ta⟩, st')
    | _ => .ok (⟨f.number, rt, none⟩, st)

/-- Left fold of a fallible construction step over a list, short-circuiting
on the first error.  Used for the per-field construction loops. -/
def foldSteps {σ α : Type} (step : σ → α → Except BuildErr σ) : σ → List α → Except BuildErr σ
  | st, [] => .ok st
  | st, f :: fs =>
    match step st f with
    | .error e => .error e
    | .ok st' => foldSteps step st' fs

/-- One per-field step of the construction loop: build the fresh FieldDef
(recursing into its sub-definition if needed) and append it to the
MessageDef at address a. -/
def buildFieldStep (recur : Nat → Option Message → DefBuilder → Except BuildErr (Nat × DefBuilder))
    (a : Nat) (m : Option Message) (st : DefBuilder) (f : FieldDescriptor) :
    Except BuildErr DefBuilder :=
  match NewFieldDef recur f m st with
  | .error e => .error e
  | .ok (fd, st') => .ok (st'.appendField a fd)

/-- Modelled from the spec: DefBuilder::GetMaybeUnfrozenMessageDef together
with the maybe-unfrozen part of GetEnumDef (bridge.cc is not in the
repository).  On a cache hit the cached Def is returned unchanged.  On a
cache miss a new unfrozen Def is allocated and inserted into the cache
BEFORE recursing into its fields (so a field referring back to the same or
an ancestor message finds the in-progress placeholder), and is appended to
the pending-freeze worklist; then each field is constructed in order. -/
def GetMaybeUnfrozenDef (sch : Schema) :
    Nat → Nat → Option Message → DefBuilder → Except BuildErr (Nat × DefBuilder)
  | 0, _, _, _ => .error .outOfFuel
  | Nat.succ fuel, d, m, st =>
    match st.FindInCache d with
    | some a => .ok (a, st)
    | none =>
      match sch.lookup d with
      | none => .error .badDescriptor
      | some (Sum.inr _) =>
        match st.AddToCache d st.defs.length with
        | .error e => .error e
        | .ok st1 =>
          .ok (st.defs.length,
               { st1 with defs := st1.defs ++ [⟨.enumK, false, []⟩],
                          to_freeze := st1.to_freeze ++ [st.defs.length] })
      | some (Sum.inl md) =>
        match st.AddToCache d st.defs.length with
        | .error e => .error e
        | .ok st1 =>
          let st2 : DefBuilder :=
            { st1 with defs := st1.defs ++ [⟨.msg, false, []⟩],
                       to_freeze := st1.to_freeze ++ [st.defs.length] }
          match foldSteps (buildFieldStep (GetMaybeUnfrozenDef sch fuel) st.defs.length m) st2 md.fields with
          | .error e => .error e
          | .ok st3 => .ok (st.defs.length, st3)

/-- Batch-apply the freezing update to the heap objects at the listed
addresses, scanning the heap from index i. -/
def markFrozenFrom {β : Type} (setF : β → β) (tf : List Nat) : Nat → List β → List β
  | _, [] => []
  | i, o :: os => (if i ∈ tf then setF o else o) :: markFrozenFrom setF tf (i + 1) os

/-- Modelled from the spec: DefBuilder::Freeze (bridge.cc is not in the
repository).  Freeze all defs on the pending-freeze worklist in one batch
and clear the worklist. -/
def DefBuilder.Freeze (st : DefBuilder) : DefBuilder :=
  { st with
    defs := markFrozenFrom (fun o => { o with frozen := true }) st.to_freeze 0 st.defs,
    to_freeze := [] }

/-- Modelled from the spec: DefBuilder::GetMessageDef (bridge.cc is not in
the repository).  Build the maybe-unfrozen graph for the descriptor, then
run the single batch Freeze pass before returning. -/
def DefBuilder.GetMessageDef (sch : Schema) (fuel : Nat) (d : Nat) (st : DefBuilder) :
    Except BuildErr (Nat × DefBuilder) :=
  match GetMaybeUnfrozenDef sch fuel d none st with
  | .error e => .error e
  | .ok (a, st') => .ok (a, st'.Freeze)

/-- Modelled from the spec: DefBuilder::GetEnumDef (bridge.cc is not in the
repository).  Same protocol as GetMessageDef, for an enum descriptor. -/
def DefBuilder.GetEnumDef (sch : Schema) (fuel : Nat) (e : Nat) (st : DefBuilder) :
    Except BuildErr (Nat × DefBuilder) :=
  match GetMaybeUnfrozenDef sch fuel e none st with
  | .error er => .error er
  | .ok (a, st') => .ok (a, st'.Freeze)

/-- Modelled from the spec: DefBuilder::GetMessageDefExpandWeak (bridge.cc
is not in the repository).  Like GetMessageDef but with the live instance
supplied, so every weak field is resolved from the instance's runtime type
information. -/
def DefBuilder.GetMessageDefExpandWeak (sch : Schema) (fuel : Nat) (m : Message)
    (st : DefBuilder) : Except BuildErr (Nat × DefBuilder) :=
  match GetMaybeUnfrozenDef sch fuel m.descriptor (some m) st with
  | .error e => .error e
  | .ok (a, st') => .ok (a, st'.Freeze)

/-- DefBuilder::NewMessageDef from bridge.h (lines 97-101): construct a
fresh DefBuilder and return its GetMessageDef result. -/
def DefBuilder.NewMessageDef (sch : Schema) (fuel : Nat) (d : Nat) :
    Except BuildErr (Nat × DefBuilder) :=
  DefBuilder.GetMessageDef sch fuel d DefBuilder.init

/-- A upb Handlers object on the CodeCache's heap: the MessageDef it is
bound to, its frozen flag, and the field numbers it has wired. -/
structure HandlersObj where
  msgdef : Nat
  frozen : Bool
  wired : List Nat
deriving DecidableEq

/-- The Handlers-side state of CodeCache from bridge.h: the heap of
Handlers built so far, the MessageDef-to-Handlers cache handlers_cache_,
and the pending-freeze worklist to_freeze_. -/
structure HState where
  handlers : List HandlersObj
  hcache : List (Nat × Nat)
  to_freeze : List Nat
deriving DecidableEq

/-- Fresh Handlers-side state. -/
def HState.init : HState := ⟨[], [], []⟩

/-- CodeCache::FindInCache from bridge.h (lines 221-224): look the
MessageDef identity up in handlers_cache_. -/
def HState.FindInCache (hs : HState) (md : Nat) : Option Nat :=
  lookupL hs.hcache md

/-- CodeCache::AddToCache from bridge.h (lines 215-219):
UPB_ASSERT(handlers_cache_.find(md) == handlers_cache_.end()), then
insert. -/
def HState.AddToCache (hs : HState) (md : Nat) (h : Nat) : Except BuildErr HState :=
  if (hs.FindInCache md).isSome then .error .assertFailed
  else .ok { hs with hcache := (md, h) :: hs.hcache }

/-- One per-field step of the handler wiring loop: for a submessage-typed
FieldDef, recursively obtain (or create) the Handlers of the submessage
type, using the live sub-instance as prototype. -/
def handlerFieldStep (recur : Nat → Message → HState → Except BuildErr (Nat × HState))
    (m : Message) (hs : HState) (fd : FieldDef) : Except BuildErr HState :=
  match fd.ftype, fd.subdef with
  | .message t, some sub =>
    match recur sub ((m.subLookup fd.number).getD (defaultInstance t)) hs with
    | .error e => .error e
    | .ok (_, hs') => .ok hs'
  | _, _ => .ok hs

/-- Modelled from the spec: CodeCache::GetMaybeUnfrozenWriteHandlers
(bridge.cc is not in the repository).  Same two-phase cycle-breaking
protocol as the Def side: on a cache miss a new unfrozen Handlers bound to
the MessageDef is allocated, inserted into handlers_cache_ BEFORE the
per-field wiring recurses into submessage fields, and appended to the
pending-freeze worklist. -/
def GetMaybeUnfrozenWriteHandlers (db : DefBuilder) :
    Nat → Nat → Message → HState → Except BuildErr (Nat × HState)
  | 0, _, _, _ => .error .outOfFuel
  | Nat.succ fuel, md, m, hs =>
    match hs.FindInCache md with
    | some h => .ok (h, hs)
    | none =>
      match db.defs.get? md with
      | none => .error .badDescriptor
      | some dobj =>
        match hs.AddToCache md hs.handlers.length with
        | .error e => .error e
        | .ok hs1 =>
          let hs2 : HState :=
            { hs1 with
              handlers := hs1.handlers ++ [⟨md, false, dobj.fields.map FieldDef.number⟩],
              to_freeze := hs1.to_freeze ++ [hs.handlers.length] }
          match foldSteps (handlerFieldStep (GetMaybeUnfrozenWriteHandlers db fuel) m) hs2 dobj.fields with
          | .error e => .error e
          | .ok hs3 => .ok (hs.handlers.length, hs3)

/-- Modelled from the spec: the Handlers-side batch Freeze of CodeCache
(bridge.cc is not in the repository). -/
def HState.Freeze (hs : HState) : HState :=
  { hs with
    handlers := markFrozenFrom (fun o => { o with frozen := true }) hs.to_freeze 0 hs.handlers,
    to_freeze := [] }

/-- The CodeCache state from bridge.h: its private DefBuilder def_builder_
plus the Handlers-side state. -/
structure CodeCache where
  db : DefBuilder
  hs : HState
deriving DecidableEq

/-- A freshly constructed CodeCache. -/
def CodeCache.init : CodeCache := ⟨DefBuilder.init, HState.init⟩

/-- Modelled from the spec: CodeCache::GetWriteHandlers (bridge.cc is not
in the repository).  Derives the frozen MessageDef of the instance's type
through the private DefBuilder (expanding weak fields), then gets or
creates the Handlers cached by MessageDef identity, and batch-freezes the
pending Handlers before returning. -/
def CodeCache.GetWriteHandlers (sch : Schema) (fuel : Nat) (m : Message) (cc : CodeCache) :
    Except BuildErr (Nat × CodeCache) :=
  match DefBuilder.GetMessageDefExpandWeak sch fuel m cc.db with
  | .error e => .error e
  | .ok (md, db') =>
    match GetMaybeUnfrozenWriteHandlers db' fuel md m cc.hs with
    | .error e => .error e
    | .ok (h, hs') => .ok (h, ⟨db', hs'.Freeze⟩)

/-- Modelled from the spec: TryGetFieldPrototype (bridge.cc is not in the
repository; bridge.h lines 247-256 document the contract).  Returns a
submessage prototype for a statically-declared submessage field (from the
live sub-instance, falling back to the factory default instance), returns
the live instance's submessage for a weak field despite its non-submessage
static type, and returns no value otherwise. -/
def TryGetFieldPrototype (m : Message) (f : FieldDescriptor) : Option Message :=
  match f.ftype with
  | .message t => some ((m.subLookup f.number).getD (defaultInstance t))
  | _ => if f.is_weak then m.subLookup f.number else none

namespace NoReflection

/-- GetProto2FieldPrototype from noreflection.cc (lines 11-15): in the
UPB_GOOGLEPB_NOREFLECTION build it unconditionally throws a plain
std::exception, modelled as an unstructured (payload-free) error. -/
def GetProto2FieldPrototype (m : Message) (f : FieldDescriptor) : Except Unit Message :=
  .error ()

/-- TrySetWriteHandlers from noreflection.cc (lines 17-21): in the
UPB_GOOGLEPB_NOREFLECTION build it unconditionally throws a plain
std::exception, modelled as an unstructured (payload-free) error. -/
def TrySetWriteHandlers (proto2_f : FieldDescriptor) (prototype : Message)
    (upb_f : FieldDef) (h : Nat) : Except Unit Bool :=
  .error ()

end NoReflection

/-- The combined cache-insert plus placeholder-allocation step of the
cycle-breaking protocol, as performed on a cache miss: the new unfrozen
Def is placed at the next heap address, recorded in the cache, and
appended to the pending-freeze worklist. -/
def insertAlloc (st : DefBuilder) (d : Nat) (k : DefKind) : DefBuilder :=
  { defs := st.defs ++ [⟨k, false, []⟩],
    def_cache := (d, st.defs.length) :: st.def_cache,
    to_freeze := st.to_freeze ++ [st.defs.length] }

/-- The Handlers-side cache-insert plus placeholder allocation performed
on a handlers-cache miss. -/
def insertAllocH (hs : HState) (md : Nat) (wd : List Nat) : HState :=
  { handlers := hs.handlers ++ [⟨md, false, wd⟩],
    hcache := (md, hs.handlers.length) :: hs.hcache,
    to_freeze := hs.to_freeze ++ [hs.handlers.length] }

/-- Target descriptor identity of a field's declared type, if it refers to
a message or enum type. -/
def fieldTarget (f : FieldDescriptor) : Option Nat :=
  match f.ftype with
  | .message t => some t
  | .enumTy t => some t
  | _ => none

/-- Decidable well-formedness of a schema: every message/enum reference
appearing in a field of a message of the pool resolves in the pool. -/
def schemaValidB (sch : Schema) : Bool :=
  sch.messages.all fun p => p.2.fields.all fun f =>
    match fieldTarget f with
    | some t => (sch.lookup t).isSome
    | none => true

/-- All descriptor identities of the pool. -/
def Schema.ids (sch : Schema) : List Nat :=
  sch.messages.map Prod.fst ++ sch.enums.map Prod.fst

/-- Number of pool descriptors not yet present in the builder's cache; the
recursion budget of a request is bounded by this. -/
def uncachedCount (sch : Schema) (st : DefBuilder) : Nat :=
  (sch.ids.filter fun k => (st.FindInCache k).isNone).length

/-- Relation between builder states across one construction step: the
cache only gains entries (no entry is removed or overwritten), the heap
only grows, and the pending-freeze worklist only gains members; moreover
every cache entry of the later state is either an old entry or points at a
newly allocated address. -/
def stepOK (st st' : DefBuilder) : Prop :=
  (∀ k v, st.FindInCache k = some v → st'.FindInCache k = some v) ∧
  st.defs.length ≤ st'.defs.length ∧
  (∀ x, x ∈ st.to_freeze → x ∈ st'.to_freeze) ∧
  (∀ k v, st'.FindInCache k = some v → st.FindInCache k = some v ∨ st.defs.length ≤ v)

/-- Cache well-formedness of a DefBuilder: descriptor keys are mapped at
most once, distinct descriptors are mapped to distinct Defs, and every
cached Def address is a valid heap address. -/
def DefBuilder.WFc (st : DefBuilder) : Prop :=
  (st.def_cache.map Prod.fst).Nodup ∧
  (st.def_cache.map Prod.snd).Nodup ∧
  (∀ p, p ∈ st.def_cache → p.2 < st.defs.length)

/-- Construction invariant: every Def on the heap is frozen or awaits the
batch Freeze on the worklist (no Def escapes both). -/
def DefBuilder.Inv (st : DefBuilder) : Prop :=
  ∀ i o, st.defs.get? i = some o → o.frozen = true ∨ i ∈ st.to_freeze

/-- Relation between Handlers states across one construction step: the
cache only gains entries, the heap only grows, the worklist only gains
members, and existing Handlers objects are untouched. -/
def hstepOK (hs hs' : HState) : Prop :=
  (∀ k v, hs.FindInCache k = some v → hs'.FindInCache k = some v) ∧
  hs.handlers.length ≤ hs'.handlers.length ∧
  (∀ x, x ∈ hs.to_freeze → x ∈ hs'.to_freeze) ∧
  (∀ i, i < hs.handlers.length → hs'.handlers.get? i = hs.handlers.get? i)

/-- Cache well-formedness of the Handlers cache, mirroring
DefBuilder.WFc. -/
def HState.WFc (hs : HState) : Prop :=
  (hs.hcache.map Prod.fst).Nodup ∧
  (hs.hcache.map Prod.snd).Nodup ∧
  (∀ p, p ∈ hs.hcache → p.2 < hs.handlers.length)

/-- Construction invariant of the Handlers side: every Handlers object is
frozen or on the pending-freeze worklist. -/
def HState.Inv (hs : HState) : Prop :=
  ∀ i o, hs.handlers.get? i = some o → o.frozen = true ∨ i ∈ hs.to_freeze

/-- Postcondition of one GetMaybeUnfrozenDef request: the state evolves by
a legal step, the requested descriptor ends up cached at the returned
address, and every pre-existing heap object is untouched. -/
def buildPost (d : Nat) (st : DefBuilder) (a : Nat) (st' : DefBuilder) : Prop :=
  stepOK st st' ∧ st'.FindInCache d = some a ∧
  (∀ i, i < st.defs.length → st'.defs.get? i = st.defs.get? i)

/-- Postcondition of the per-field construction loop for the MessageDef at
address a: a legal step that touches no pre-existing heap object other
than the one at a. -/
def foldPost (a : Nat) (st st' : DefBuilder) : Prop :=
  stepOK st st' ∧ (∀ i, i < st.defs.length → a ≠ i → st'.defs.get? i = st.defs.get? i)

/-- Per-field correspondence between a FieldDescriptor and the FieldDef
built from it: the number is copied, the type is the resolved type (weak
expansion applied), and a message/enum typed field's subdef is exactly the
cached Def of the target descriptor. -/
def fieldMatches (st : DefBuilder) (m : Option Message) (f : FieldDescriptor) (fd : FieldDef) : Prop :=
  ∃ rt, resolveFieldType f m = .ok rt ∧ fd.number = f.number ∧ fd.ftype = rt ∧
    (match rt with
     | .message t => ∃ ta, st.FindInCache t = some ta ∧ fd.subdef = some ta
     | .enumTy t => ∃ ta, st.FindInCache t = some ta ∧ fd.subdef = some ta
     | _ => fd.subdef = none)

/-- The cached Def at address a is a completed build of descriptor k
(fields constructed with no live instance). -/
def DefComplete (sch : Schema) (st : DefBuilder) (k a : Nat) : Prop :=
  ∃ obj, st.defs.get? a = some obj ∧ (sch.lookup k).isSome = true ∧
    (∀ md, sch.lookup k = some (Sum.inl md) →
      obj.kind = .msg ∧ List.Forall₂ (fieldMatches st none) md.fields obj.fields) ∧
    (∀ ed, sch.lookup k = some (Sum.inr ed) → obj.kind = .enumK)

/-- Every cached descriptor is completely built, except possibly the ones
in the in-progress list P (the cycle-breaking placeholders of enclosing
requests). -/
def CompleteExcept (sch : Schema) (st : DefBuilder) (P : List Nat) : Prop :=
  ∀ k a, st.FindInCache k = some a → k ∈ P ∨ DefComplete sch st k a

theorem lookupL_mem {α : Type} {l : List (Nat × α)} {k : Nat} {v : α}
    (h : lookupL l k = some v) : (k, v) ∈ l := by
  induction l with
  | nil => simp [lookupL] at h
  | cons p r ih =>
    obtain ⟨k', v'⟩ := p
    by_cases hk : k' = k
    · subst hk
      simp [lookupL] at h
      simp [h]
    · simp [lookupL, hk] at h
      exact List.mem_cons_of_mem _ (ih h)

theorem lookupL_cons {α : Type} (k' : Nat) (v' : α) (r : List (Nat × α)) (k : Nat) :
    lookupL ((k', v') :: r) k = if k' = k then some v' else lookupL r k := rfl

theorem lookupL_inj {α : Type} {l : List (Nat × α)}
    (hk : (l.map Prod.fst).Nodup) (hv : (l.map Prod.snd).Nodup)
    {k1 k2 : Nat} {v1 v2 : α} (h1 : lookupL l k1 = some v1) (h2 : lookupL l k2 = some v2)
    (hne : k1 ≠ k2) : v1 ≠ v2 := by
  induction l with
  | nil => simp [lookupL] at h1
  | cons p r ih =>
    obtain ⟨k', v'⟩ := p
    simp only [List.map_cons, List.nodup_cons] at hk hv
    by_cases e1 : k' = k1
    · subst e1
      rw [lookupL_cons, if_pos rfl] at h1
      rw [lookupL_cons, if_neg hne] at h2
      cases h1
      intro hcontra
      subst hcontra
      exact hv.1 (List.mem_map_of_mem Prod.snd (lookupL_mem h2))
    · by_cases e2 : k' = k2
      · subst e2
        rw [lookupL_cons, if_pos rfl] at h2
        rw [lookupL_cons, if_neg e1] at h1
        cases h2
        intro hcontra
        subst hcontra
        exact hv.1 (List.mem_map_of_mem Prod.snd (lookupL_mem h1))
      · rw [lookupL_cons, if_neg e1] at h1
        rw [lookupL_cons, if_neg e2] at h2
        exact ih hk.2 hv.2 h1 h2

theorem mem_ids_of_lookup {sch : Schema} {d : Nat} {x : MessageDescriptor ⊕ EnumDescriptor}
    (h : sch.lookup d = some x) : d ∈ sch.ids := by
  unfold Schema.lookup at h
  unfold Schema.ids
  cases hm : lookupL sch.messages d with
  | some md =>
    exact List.mem_append_left _ (List.mem_map_of_mem Prod.fst (lookupL_mem hm))
  | none =>
    rw [hm] at h
    cases he : lookupL sch.enums d with
    | some ed =>
      exact List.mem_append_right _ (List.mem_map_of_mem Prod.fst (lookupL_mem he))
    | none => rw [he] at h; simp at h

theorem filter_length_mono {l : List Nat} {p q : Nat → Bool}
    (h : ∀ x, q x = true → p x = true) :
    (l.filter q).length ≤ (l.filter p).length := by
  induction l with
  | nil => simp
  | cons a r ih =>
    by_cases hq : q a = true
    · simp [List.filter_cons, hq, h a hq]
      exact ih
    · simp only [Bool.not_eq_true] at hq
      simp only [List.filter_cons, hq]
      by_cases hp : p a = true
      · simp [hp]
        exact Nat.le_succ_of_le ih
      · simp only [Bool.not_eq_true] at hp
        simp [hp]
        exact ih

theorem filter_length_strict {l : List Nat} {p q : Nat → Bool}
    (h : ∀ x, q x = true → p x = true) {d : Nat}
    (hd : d ∈ l) (hp : p d = true) (hq : q d = false) :
    (l.filter q).length < (l.filter p).length := by
  induction l with
  | nil => simp at hd
  | cons a r ih =>
    rcases List.mem_cons.mp hd with rfl | hdr
    · simp [List.filter_cons, hq, hp]
      exact Nat.lt_succ_of_le (filter_length_mono h)
    · by_cases hqa : q a = true
      · simp [List.filter_cons, hqa, h a hqa]
        exact ih hdr
      · simp only [Bool.not_eq_true] at hqa
        simp only [List.filter_cons, hqa]
        by_cases hpa : p a = true
        · simp [hpa]
          exact Nat.lt_succ_of_lt (ih hdr)
        · simp only [Bool.not_eq_true] at hpa
          simp [hpa]
          exact ih hdr

theorem markFrozenFrom_length {β : Type} (setF : β → β) (tf : List Nat) :
    ∀ (ds : List β) (i : Nat), (markFrozenFrom setF tf i ds).length = ds.length := by
  intro ds
  induction ds with
  | nil => intro i; rfl
  | cons o os ih => intro i; simp [markFrozenFrom, ih]

theorem markFrozenFrom_get? {β : Type} (setF : β → β) (tf : List Nat) :
    ∀ (ds : List β) (i j : Nat),
      (markFrozenFrom setF tf i ds).get? j =
        (ds.get? j).map (fun o => if (i + j) ∈ tf then setF o else o) := by
  intro ds
  induction ds with
  | nil => intro i j; simp [markFrozenFrom]
  | cons o os ih =>
    intro i j
    cases j with
    | zero => simp [markFrozenFrom]
    | succ j =>
      simp only [markFrozenFrom, List.get?_cons_succ, ih (i + 1) j]
      have harith : i + 1 + j = i + (j + 1) := by omega
      rw [harith]

theorem markFrozenFrom_nil_tf {β : Type} (setF : β → β) :
    ∀ (ds : List β) (i : Nat), markFrozenFrom setF [] i ds = ds := by
  intro ds
  induction ds with
  | nil => intro i; rfl
  | cons o os ih => intro i; simp [markFrozenFrom, ih]

theorem appendField_def_cache (st : DefBuilder) (a : Nat) (fd : FieldDef) :
    (st.appendField a fd).def_cache = st.def_cache := by
  unfold DefBuilder.appendField
  split <;> rfl

theorem appendField_FindInCache (st : DefBuilder) (a : Nat) (fd : FieldDef) (k : Nat) :
    (st.appendField a fd).FindInCache k = st.FindInCache k := by
  unfold DefBuilder.FindInCache
  rw [appendField_def_cache]

theorem appendField_to_freeze (st : DefBuilder) (a : Nat) (fd : FieldDef) :
    (st.appendField a fd).to_freeze = st.to_freeze := by
  unfold DefBuilder.appendField
  split <;> rfl

theorem appendField_defs_length (st : DefBuilder) (a : Nat) (fd : FieldDef) :
    (st.appendField a fd).defs.length = st.defs.length := by
  unfold DefBuilder.appendField
  split
  · simp
  · rfl

theorem appendField_get?_ne (st : DefBuilder) (a : Nat) (fd : FieldDef) (i : Nat)
    (hne : a ≠ i) : (st.appendField a fd).defs.get? i = st.defs.get? i := by
  unfold DefBuilder.appendField
  split
  · simp only
    exact List.get?_set_ne _ _ hne
  · rfl

theorem appendField_get?_eq (st : DefBuilder) (a : Nat) (fd : FieldDef) (o : DefObj)
    (h : st.defs.get? a = some o) :
    (st.appendField a fd).defs.get? a = some { o with fields := o.fields ++ [fd] } := by
  have ha : a < st.defs.length := by
    rcases List.get?_eq_some.mp h with ⟨hlt, _⟩
    exact hlt
  unfold DefBuilder.appendField
  rw [h]
  exact List.get?_set_eq_of_lt _ ha

theorem Freeze_def_cache (st : DefBuilder) : st.Freeze.def_cache = st.def_cache := rfl

theorem Freeze_FindInCache (st : DefBuilder) (k : Nat) :
    st.Freeze.FindInCache k = st.FindInCache k := rfl

theorem Freeze_to_freeze (st : DefBuilder) : st.Freeze.to_freeze = [] := rfl

theorem Freeze_defs_length (st : DefBuilder) : st.Freeze.defs.length = st.defs.length :=
  markFrozenFrom_length _ _ _ _

theorem Freeze_get? (st : DefBuilder) (i : Nat) :
    st.Freeze.defs.get? i =
      (st.defs.get? i).map (fun o => if i ∈ st.to_freeze then { o with frozen := true } else o) := by
  have h := markFrozenFrom_get? (fun o : DefObj => { o with frozen := true }) st.to_freeze st.defs 0 i
  simpa using h

theorem Freeze_of_empty (st : DefBuilder) (h : st.to_freeze = []) : st.Freeze = st := by
  obtain ⟨ds, c, tf⟩ := st
  simp only [DefBuilder.Freeze] at *
  subst h
  simp [markFrozenFrom_nil_tf]

theorem AddToCache_of_not_found (st : DefBuilder) (d a : Nat)
    (h : st.FindInCache d = none) :
    st.AddToCache d a = .ok { st with def_cache := (d, a) :: st.def_cache } := by
  unfold DefBuilder.AddToCache
  rw [h]
  rfl

theorem build_zero (sch : Schema) (d : Nat) (m : Option Message) (st : DefBuilder) :
    GetMaybeUnfrozenDef sch 0 d m st = .error .outOfFuel := rfl

theorem build_succ_hit {sch : Schema} {fuel d : Nat} {m : Option Message} {st : DefBuilder}
    {a : Nat} (hf : st.FindInCache d = some a) :
    GetMaybeUnfrozenDef sch (Nat.succ fuel) d m st = .ok (a, st) := by
  simp [GetMaybeUnfrozenDef, hf]

theorem build_succ_bad {sch : Schema} {fuel d : Nat} {m : Option Message} {st : DefBuilder}
    (hf : st.FindInCache d = none) (hl : sch.lookup d = none) :
    GetMaybeUnfrozenDef sch (Nat.succ fuel) d m st = .error .badDescriptor := by
  simp [GetMaybeUnfrozenDef, hf, hl]

theorem build_succ_miss_enum {sch : Schema} {fuel d : Nat} {m : Option Message}
    {st : DefBuilder} {ed : EnumDescriptor}
    (hf : st.FindInCache d = none) (hl : sch.lookup d = some (Sum.inr ed)) :
    GetMaybeUnfrozenDef sch (Nat.succ fuel) d m st =
      .ok (st.defs.length, insertAlloc st d .enumK) := by
  simp [GetMaybeUnfrozenDef, hf, hl, DefBuilder.AddToCache, insertAlloc]

theorem build_succ_miss_msg {sch : Schema} {fuel d : Nat} {m : Option Message}
    {st : DefBuilder} {md : MessageDescriptor}
    (hf : st.FindInCache d = none) (hl : sch.lookup d = some (Sum.inl md)) :
    GetMaybeUnfrozenDef sch (Nat.succ fuel) d m st =
      (match foldSteps (buildFieldStep (GetMaybeUnfrozenDef sch fuel) st.defs.length m)
          (insertAlloc st d .msg) md.fields with
       | .error e => .error e
       | .ok st3 => .ok (st.defs.length, st3)) := by
  simp [GetMaybeUnfrozenDef, hf, hl, DefBuilder.AddToCache, insertAlloc]

theorem insertAlloc_FindInCache (st : DefBuilder) (d : Nat) (k : DefKind) (x : Nat) :
    (insertAlloc st d k).FindInCache x =
      if d = x then some st.defs.length else st.FindInCache x := rfl

theorem insertAlloc_defs_length (st : DefBuilder) (d : Nat) (k : DefKind) :
    (insertAlloc st d k).defs.length = st.defs.length + 1 := by
  simp [insertAlloc]

theorem insertAlloc_get?_old (st : DefBuilder) (d : Nat) (k : DefKind) {i : Nat}
    (hi : i < st.defs.length) :
    (insertAlloc st d k).defs.get? i = st.defs.get? i := by
  simp only [insertAlloc]
  exact List.get?_append hi

theorem insertAlloc_get?_new (st : DefBuilder) (d : Nat) (k : DefKind) :
    (insertAlloc st d k).defs.get? st.defs.length = some ⟨k, false, []⟩ := by
  simp [insertAlloc]

theorem stepOK_refl (st : DefBuilder) : stepOK st st :=
  ⟨fun _ _ h => h, Nat.le_refl _, fun _ h => h, fun _ _ h => Or.inl h⟩

theorem stepOK_trans {s1 s2 s3 : DefBuilder} (h12 : stepOK s1 s2) (h23 : stepOK s2 s3) :
    stepOK s1 s3 := by
  obtain ⟨c12, l12, f12, n12⟩ := h12
  obtain ⟨c23, l23, f23, n23⟩ := h23
  refine ⟨fun k v h => c23 k v (c12 k v h), Nat.le_trans l12 l23,
    fun x h => f23 x (f12 x h), fun k v h => ?_⟩
  rcases n23 k v h with h2 | h2
  · exact n12 k v h2
  · exact Or.inr (Nat.le_trans l12 h2)

theorem stepOK_appendField (st : DefBuilder) (a : Nat) (fd : FieldDef) :
    stepOK st (st.appendField a fd) := by
  refine ⟨?_, ?_, ?_, ?_⟩
  · intro k v h
    rw [appendField_FindInCache]
    exact h
  · rw [appendField_defs_length]
  · intro x h
    rw [appendField_to_freeze]
    exact h
  · intro k v h
    rw [appendField_FindInCache] at h
    exact Or.inl h

theorem stepOK_insertAlloc {st : DefBuilder} {d : Nat} (k : DefKind)
    (hf : st.FindInCache d = none) : stepOK st (insertAlloc st d k) := by
  refine ⟨?_, ?_, ?_, ?_⟩
  · intro x v h
    rw [insertAlloc_FindInCache]
    by_cases hd : d = x
    · subst hd; rw [hf] at h; cases h
    · rw [if_neg hd]; exact h
  · rw [insertAlloc_defs_length]; omega
  · intro x h
    simp [insertAlloc]
    exact Or.inl h
  · intro x v h
    rw [insertAlloc_FindInCache] at h
    by_cases hd : d = x
    · rw [if_pos hd] at h
      cases h
      exact Or.inr (Nat.le_refl _)
    · rw [if_neg hd] at h
      exact Or.inl h

theorem foldSteps_nil {σ α : Type} (step : σ → α → Except BuildErr σ) (st : σ) :
    foldSteps step st [] = .ok st := rfl

theorem foldSteps_cons {σ α : Type} (step : σ → α → Except BuildErr σ) (st : σ)
    (f : α) (fs : List α) :
    foldSteps step st (f :: fs) =
      (match step st f with
       | .error e => .error e
       | .ok st' => foldSteps step st' fs) := rfl

theorem foldSteps_pres {σ α : Type} (step : σ → α → Except BuildErr σ) (Q : σ → Prop)
    (hstep : ∀ st f st', step st f = .ok st' → Q st → Q st') :
    ∀ (fs : List α) (st st' : σ), foldSteps step st fs = .ok st' → Q st → Q st' := by
  intro fs
  induction fs with
  | nil =>
    intro st st' h hq
    rw [foldSteps_nil] at h
    simp only [Except.ok.injEq] at h
    subst h
    exact hq
  | cons f fs ih =>
    intro st st' h hq
    rw [foldSteps_cons] at h
    cases hs : step st f with
    | error e => rw [hs] at h; cases h
    | ok st1 =>
      rw [hs] at h
      exact ih st1 st' h (hstep st f st1 hs hq)

theorem foldSteps_ne_err {σ α : Type} (step : σ → α → Except BuildErr σ) (e : BuildErr)
    (hstep : ∀ st f, step st f ≠ .error e) :
    ∀ (fs : List α) (st : σ), foldSteps step st fs ≠ .error e := by
  intro fs
  induction fs with
  | nil => intro st h; rw [foldSteps_nil] at h; cases h
  | cons f fs ih =>
    intro st h
    rw [foldSteps_cons] at h
    cases hs : step st f with
    | error e' =>
      rw [hs] at h
      simp only [Except.error.injEq] at h
      subst h
      exact hstep st f hs
    | ok st1 =>
      rw [hs] at h
      exact ih st1 h

theorem foldSteps_err_of_mem {σ α : Type} (step : σ → α → Except BuildErr σ) {f : α}
    (hstep : ∀ st, ∃ e, step st f = .error e) :
    ∀ (fs : List α), f ∈ fs → ∀ (st st' : σ), foldSteps step st fs ≠ .ok st' := by
  intro fs
  induction fs with
  | nil => intro hmem; simp at hmem
  | cons g gs ih =>
    intro hmem st st' h
    rw [foldSteps_cons] at h
    rcases List.mem_cons.mp hmem with rfl | hmem'
    · obtain ⟨e, he⟩ := hstep st
      rw [he] at h
      cases h
    · cases hs : step st g with
      | error e => rw [hs] at h; cases h
      | ok st1 =>
        rw [hs] at h
        exact ih hmem' st1 st' h

theorem lookupL_eq_none_iff {α : Type} {l : List (Nat × α)} {k : Nat} :
    lookupL l k = none ↔ k ∉ l.map Prod.fst := by
  induction l with
  | nil => simp [lookupL]
  | cons p r ih =>
    obtain ⟨k', v'⟩ := p
    by_cases hk : k' = k
    · subst hk
      simp [lookupL_cons]
    · simp [lookupL_cons, hk, ih, Ne.symm hk]

theorem get?_append_singleton {β : Type} {l : List β} {x o : β} {i : Nat}
    (h : (l ++ [x]).get? i = some o) : l.get? i = some o ∨ (i = l.length ∧ o = x) := by
  by_cases hi : i < l.length
  · left
    rw [← List.get?_append hi]
    exact h
  · right
    have hlen : i < l.length + 1 := by
      rcases List.get?_eq_some.mp h with ⟨hlt, _⟩
      simpa using hlt
    have hieq : i = l.length := by omega
    subst hieq
    rw [List.get?_append_right (Nat.le_refl _)] at h
    simp at h
    exact ⟨rfl, h.symm⟩

theorem WFc_appendField {st : DefBuilder} (a : Nat) (fd : FieldDef) (hw : st.WFc) :
    (st.appendField a fd).WFc := by
  obtain ⟨h1, h2, h3⟩ := hw
  refine ⟨?_, ?_, ?_⟩
  · rw [appendField_def_cache]; exact h1
  · rw [appendField_def_cache]; exact h2
  · intro p hp
    rw [appendField_def_cache] at hp
    rw [appendField_defs_length]
    exact h3 p hp

theorem WFc_insertAlloc {st : DefBuilder} {d : Nat} (k : DefKind)
    (hf : st.FindInCache d = none) (hw : st.WFc) : (insertAlloc st d k).WFc := by
  obtain ⟨h1, h2, h3⟩ := hw
  refine ⟨?_, ?_, ?_⟩
  · simp only [insertAlloc, List.map_cons, List.nodup_cons]
    exact ⟨lookupL_eq_none_iff.mp hf, h1⟩
  · simp only [insertAlloc, List.map_cons, List.nodup_cons]
    refine ⟨?_, h2⟩
    intro hmem
    rcases List.mem_map.mp hmem with ⟨p, hp, hpv⟩
    have := h3 p hp
    omega
  · intro p hp
    rw [insertAlloc_defs_length]
    simp only [insertAlloc, List.mem_cons] at hp
    rcases hp with rfl | hp
    · simp
    · have := h3 p hp
      omega

theorem Inv_appendField {st : DefBuilder} (a : Nat) (fd : FieldDef) (hInv : st.Inv) :
    (st.appendField a fd).Inv := by
  intro i o h
  rw [appendField_to_freeze]
  by_cases hia : a = i
  · subst hia
    cases hg : st.defs.get? a with
    | none =>
      unfold DefBuilder.appendField at h
      rw [hg] at h
      rw [hg] at h
      cases h
    | some o0 =>
      rw [appendField_get?_eq st a fd o0 hg] at h
      simp only [Option.some.injEq] at h
      subst h
      exact hInv a o0 hg
  · rw [appendField_get?_ne st a fd i hia] at h
    exact hInv i o h

theorem Inv_insertAlloc {st : DefBuilder} (d : Nat) (k : DefKind) (hInv : st.Inv) :
    (insertAlloc st d k).Inv := by
  intro i o h
  simp only [insertAlloc] at h
  rcases get?_append_singleton h with hold | ⟨rfl, rfl⟩
  · rcases hInv i o hold with hfz | hmem
    · exact Or.inl hfz
    · right
      simp only [insertAlloc, List.mem_append]
      exact Or.inl hmem
  · right
    simp [insertAlloc]

theorem resolveFieldType_ne_assert (f : FieldDescriptor) (m : Option Message) :
    resolveFieldType f m ≠ .error .assertFailed := by
  unfold resolveFieldType
  cases m with
  | none => simp
  | some inst =>
    by_cases hw : f.is_weak
    · simp only [hw, if_true]
      cases inst.subLookup f.number <;> simp
    · simp [hw]

theorem stepSafe {sch : Schema} {fuel a : Nat} {m : Option Message} {f : FieldDescriptor}
    {st st' : DefBuilder}
    (hIH : ∀ d m0 st0 x st1, GetMaybeUnfrozenDef sch fuel d m0 st0 = .ok (x, st1) →
      buildPost d st0 x st1)
    (h : buildFieldStep (GetMaybeUnfrozenDef sch fuel) a m st f = .ok st') :
    foldPost a st st' := by
  unfold buildFieldStep NewFieldDef at h
  cases hr : resolveFieldType f m with
  | error e => rw [hr] at h; cases h
  | ok rt =>
    rw [hr] at h
    cases rt with
    | scalar =>
      simp only [Except.ok.injEq] at h
      subst h
      exact ⟨stepOK_appendField st a _, fun i _ hne => appendField_get?_ne st a _ i hne⟩
    | bytes =>
      simp only [Except.ok.injEq] at h
      subst h
      exact ⟨stepOK_appendField st a _, fun i _ hne => appendField_get?_ne st a _ i hne⟩
    | message t =>
      simp only at h
      cases hrec : GetMaybeUnfrozenDef sch fuel t (m.bind fun inst => inst.subLookup f.number) st with
      | error e => rw [hrec] at h; cases h
      | ok p =>
        obtain ⟨ta, st1⟩ := p
        rw [hrec] at h
        simp only [Except.ok.injEq] at h
        subst h
        obtain ⟨sOK, _, hpres⟩ := hIH _ _ _ _ _ hrec
        refine ⟨stepOK_trans sOK (stepOK_appendField st1 a _), fun i hi hne => ?_⟩
        rw [appendField_get?_ne st1 a _ i hne]
        exact hpres i hi
    | enumTy t =>
      simp only at h
      cases hrec : GetMaybeUnfrozenDef sch fuel t none st with
      | error e => rw [hrec] at h; cases h
      | ok p =>
        obtain ⟨ta, st1⟩ := p
        rw [hrec] at h
        simp only [Except.ok.injEq] at h
        subst h
        obtain ⟨sOK, _, hpres⟩ := hIH _ _ _ _ _ hrec
        refine ⟨stepOK_trans sOK (stepOK_appendField st1 a _), fun i hi hne => ?_⟩
        rw [appendField_get?_ne st1 a _ i hne]
        exact hpres i hi

theorem foldSafe (sch : Schema) (fuel a : Nat) (m : Option Message)
    (hIH : ∀ d m0 st0 x st1, GetMaybeUnfrozenDef sch fuel d m0 st0 = .ok (x, st1) →
      buildPost d st0 x st1) :
    ∀ (fs : List FieldDescriptor) (st st' : DefBuilder),
      foldSteps (buildFieldStep (GetMaybeUnfrozenDef sch fuel) a m) st fs = .ok st' →
      foldPost a st st' := by
  intro fs
  induction fs with
  | nil =>
    intro st st' h
    rw [foldSteps_nil] at h
    simp only [Except.ok.injEq] at h
    subst h
    exact ⟨stepOK_refl st, fun _ _ _ => rfl⟩
  | cons f fs ih =>
    intro st st' h
    rw [foldSteps_cons] at h
    cases hstep : buildFieldStep (GetMaybeUnfrozenDef sch fuel) a m st f with
    | error e => rw [hstep] at h; cases h
    | ok st1 =>
      rw [hstep] at h
      obtain ⟨sOK1, hp1⟩ := stepSafe hIH hstep
      obtain ⟨sOK2, hp2⟩ := ih st1 st' h
      refine ⟨stepOK_trans sOK1 sOK2, fun i hi hne => ?_⟩
      rw [hp2 i (Nat.lt_of_lt_of_le hi sOK1.2.1) hne]
      exact hp1 i hi hne

theorem stepPres {sch : Schema} {fuel a : Nat} {m : Option Message} (Q : DefBuilder → Prop)
    (hQapp : ∀ (st : DefBuilder) (a0 : Nat) (fd : FieldDef), Q st → Q (st.appendField a0 fd))
    (hIH : ∀ d m0 st0 x st1, GetMaybeUnfrozenDef sch fuel d m0 st0 = .ok (x, st1) →
      Q st0 → Q st1) :
    ∀ (st : DefBuilder) (f : FieldDescriptor) (st' : DefBuilder),
      buildFieldStep (GetMaybeUnfrozenDef sch fuel) a m st f = .ok st' → Q st → Q st' := by
  intro st f st' h hq
  unfold buildFieldStep NewFieldDef at h
  cases hr : resolveFieldType f m with
  | error e => rw [hr] at h; cases h
  | ok rt =>
    rw [hr] at h
    cases rt with
    | scalar =>
      simp only [Except.ok.injEq] at h
      subst h
      exact hQapp st a _ hq
    | bytes =>
      simp only [Except.ok.injEq] at h
      subst h
      exact hQapp st a _ hq
    | message t =>
      simp only at h
      cases hrec : GetMaybeUnfrozenDef sch fuel t (m.bind fun inst => inst.subLookup f.number) st with
      | error e => rw [hrec] at h; cases h
      | ok p =>
        obtain ⟨ta, st1⟩ := p
        rw [hrec] at h
        simp only [Except.ok.injEq] at h
        subst h
        exact hQapp st1 a _ (hIH _ _ _ _ _ hrec hq)
    | enumTy t =>
      simp only at h
      cases hrec : GetMaybeUnfrozenDef sch fuel t none st with
      | error e => rw [hrec] at h; cases h
      | ok p =>
        obtain ⟨ta, st1⟩ := p
        rw [hrec] at h
        simp only [Except.ok.injEq] at h
        subst h
        exact hQapp st1 a _ (hIH _ _ _ _ _ hrec hq)

theorem buildPres (sch : Schema) (Q : DefBuilder → Prop)
    (hQapp : ∀ (st : DefBuilder) (a0 : Nat) (fd : FieldDef), Q st → Q (st.appendField a0 fd))
    (hQins : ∀ (st : DefBuilder) (d : Nat) (k : DefKind), st.FindInCache d = none →
      Q st → Q (insertAlloc st d k)) :
    ∀ (fuel d : Nat) (m : Option Message) (st : DefBuilder) (a : Nat) (st' : DefBuilder),
      GetMaybeUnfrozenDef sch fuel d m st = .ok (a, st') → Q st → Q st' := by
  intro fuel
  induction fuel with
  | zero =>
    intro d m st a st' h
    rw [build_zero] at h
    cases h
  | succ fuel ih =>
    intro d m st a st' h hq
    cases hf : st.FindInCache d with
    | some a0 =>
      rw [build_succ_hit hf] at h
      simp only [Except.ok.injEq, Prod.mk.injEq] at h
      obtain ⟨rfl, rfl⟩ := h
      exact hq
    | none =>
      cases hl : sch.lookup d with
      | none => rw [build_succ_bad hf hl] at h; cases h
      | some x =>
        cases x with
        | inr ed =>
          rw [build_succ_miss_enum hf hl] at h
          simp only [Except.ok.injEq, Prod.mk.injEq] at h
          obtain ⟨rfl, rfl⟩ := h
          exact hQins st d .enumK hf hq
        | inl md =>
          rw [build_succ_miss_msg hf hl] at h
          cases hfold : foldSteps (buildFieldStep (GetMaybeUnfrozenDef sch fuel) st.defs.length m)
              (insertAlloc st d .msg) md.fields with
          | error e => rw [hfold] at h; cases h
          | ok st3 =>
            rw [hfold] at h
            simp only [Except.ok.injEq, Prod.mk.injEq] at h
            obtain ⟨rfl, rfl⟩ := h
            exact foldSteps_pres _ Q (stepPres Q hQapp ih) md.fields _ _ hfold
              (hQins st d .msg hf hq)

theorem buildWFc (sch : Schema) {fuel d : Nat} {m : Option Message} {st : DefBuilder}
    {a : Nat} {st' : DefBuilder}
    (h : GetMaybeUnfrozenDef sch fuel d m st = .ok (a, st')) (hw : st.WFc) : st'.WFc :=
  buildPres sch DefBuilder.WFc (fun st a0 fd hq => WFc_appendField a0 fd hq)
    (fun st d0 k hf hq => WFc_insertAlloc k hf hq) fuel d m st a st' h hw

theorem buildInv (sch : Schema) {fuel d : Nat} {m : Option Message} {st : DefBuilder}
    {a : Nat} {st' : DefBuilder}
    (h : GetMaybeUnfrozenDef sch fuel d m st = .ok (a, st')) (hInv : st.Inv) : st'.Inv :=
  buildPres sch DefBuilder.Inv (fun st a0 fd hq => Inv_appendField a0 fd hq)
    (fun st d0 k _ hq => Inv_insertAlloc d0 k hq) fuel d m st a st' h hInv

theorem Freeze_all_frozen {st : DefBuilder} (hInv : st.Inv) :
    ∀ i o, st.Freeze.defs.get? i = some o → o.frozen = true := by
  intro i o h
  rw [Freeze_get?] at h
  cases hg : st.defs.get? i with
  | none => rw [hg] at h; cases h
  | some o0 =>
    rw [hg] at h
    simp only [Option.map_some', Option.some.injEq] at h
    by_cases hmem : i ∈ st.to_freeze
    · rw [if_pos hmem] at h
      subst h
      rfl
    · rw [if_neg hmem] at h
      subst h
      rcases hInv i o0 hg with hfz | hm
      · exact hfz
      · exact absurd hm hmem

theorem stepNoAssert {sch : Schema} {fuel a : Nat} {m : Option Message}
    (hIH : ∀ d m0 st0, GetMaybeUnfrozenDef sch fuel d m0 st0 ≠ .error .assertFailed) :
    ∀ (st : DefBuilder) (f : FieldDescriptor),
      buildFieldStep (GetMaybeUnfrozenDef sch fuel) a m st f ≠ .error .assertFailed := by
  intro st f h
  unfold buildFieldStep NewFieldDef at h
  cases hr : resolveFieldType f m with
  | error e =>
    rw [hr] at h
    simp only [Except.error.injEq] at h
    subst h
    exact resolveFieldType_ne_assert f m hr
  | ok rt =>
    rw [hr] at h
    cases rt with
    | scalar => simp at h
    | bytes => simp at h
    | message t =>
      simp only at h
      cases hrec : GetMaybeUnfrozenDef sch fuel t (m.bind fun inst => inst.subLookup f.number) st with
      | error e =>
        rw [hrec] at h
        simp only [Except.error.injEq] at h
        subst h
        exact hIH _ _ _ hrec
      | ok p =>
        obtain ⟨ta, st1⟩ := p
        rw [hrec] at h
        simp at h
    | enumTy t =>
      simp only at h
      cases hrec : GetMaybeUnfrozenDef sch fuel t none st with
      | error e =>
        rw [hrec] at h
        simp only [Except.error.injEq] at h
        subst h
        exact hIH _ _ _ hrec
      | ok p =>
        obtain ⟨ta, st1⟩ := p
        rw [hrec] at h
        simp at h

theorem buildNoAssert (sch : Schema) :
    ∀ (fuel d : Nat) (m : Option Message) (st : DefBuilder),
      GetMaybeUnfrozenDef sch fuel d m st ≠ .error .assertFailed := by
  intro fuel
  induction fuel with
  | zero =>
    intro d m st h
    rw [build_zero] at h
    simp at h
  | succ fuel ih =>
    intro d m st h
    cases hf : st.FindInCache d with
    | some a0 => rw [build_succ_hit hf] at h; simp at h
    | none =>
      cases hl : sch.lookup d with
      | none => rw [build_succ_bad hf hl] at h; simp at h
      | some x =>
        cases x with
        | inr ed => rw [build_succ_miss_enum hf hl] at h; simp at h
        | inl md =>
          rw [build_succ_miss_msg hf hl] at h
          cases hfold : foldSteps (buildFieldStep (GetMaybeUnfrozenDef sch fuel) st.defs.length m)
              (insertAlloc st d .msg) md.fields with
          | error e =>
            rw [hfold] at h
            simp only [Except.error.injEq] at h
            subst h
            exact foldSteps_ne_err _ _ (stepNoAssert fun d0 m0 st0 => ih d0 m0 st0)
              md.fields _ hfold
          | ok st3 =>
            rw [hfold] at h
            simp at h

theorem buildSafe (sch : Schema) :
    ∀ (fuel d : Nat) (m : Option Message) (st : DefBuilder) (a : Nat) (st' : DefBuilder),
      GetMaybeUnfrozenDef sch fuel d m st = .ok (a, st') → buildPost d st a st' := by
  intro fuel
  induction fuel with
  | zero =>
    intro d m st a st' h
    rw [build_zero] at h
    cases h
  | succ fuel ih =>
    intro d m st a st' h
    cases hf : st.FindInCache d with
    | some a0 =>
      rw [build_succ_hit hf] at h
      simp only [Except.ok.injEq, Prod.mk.injEq] at h
      obtain ⟨rfl, rfl⟩ := h
      exact ⟨stepOK_refl st, hf, fun _ _ => rfl⟩
    | none =>
      cases hl : sch.lookup d with
      | none => rw [build_succ_bad hf hl] at h; cases h
      | some x =>
        cases x with
        | inr ed =>
          rw [build_succ_miss_enum hf hl] at h
          simp only [Except.ok.injEq, Prod.mk.injEq] at h
          obtain ⟨rfl, rfl⟩ := h
          refine ⟨stepOK_insertAlloc .enumK hf, ?_, ?_⟩
          · rw [insertAlloc_FindInCache, if_pos rfl]
          · intro i hi
            exact insertAlloc_get?_old st d .enumK hi
        | inl md =>
          rw [build_succ_miss_msg hf hl] at h
          cases hfold : foldSteps (buildFieldStep (GetMaybeUnfrozenDef sch fuel) st.defs.length m)
              (insertAlloc st d .msg) md.fields with
          | error e => rw [hfold] at h; cases h
          | ok st3 =>
            rw [hfold] at h
            simp only [Except.ok.injEq, Prod.mk.injEq] at h
            obtain ⟨rfl, rfl⟩ := h
            obtain ⟨sOKf, hpresf⟩ := foldSafe sch fuel st.defs.length m ih md.fields _ _ hfold
            refine ⟨stepOK_trans (stepOK_insertAlloc .msg hf) sOKf, ?_, ?_⟩
            · apply sOKf.1
              rw [insertAlloc_FindInCache, if_pos rfl]
            · intro i hi
              have h1 : (insertAlloc st d .msg).defs.get? i = st.defs.get? i :=
                insertAlloc_get?_old st d .msg hi
              have h2 : st3.defs.get? i = (insertAlloc st d .msg).defs.get? i := by
                apply hpresf i
                · rw [insertAlloc_defs_length]; omega
                · omega
              rw [h2, h1]

theorem fieldMatches_mono {st st' : DefBuilder} {m : Option Message} {f : FieldDescriptor}
    {fd : FieldDef}
    (hext : ∀ k v, st.FindInCache k = some v → st'.FindInCache k = some v)
    (h : fieldMatches st m f fd) : fieldMatches st' m f fd := by
  obtain ⟨rt, hr, hn, ht, hsub⟩ := h
  refine ⟨rt, hr, hn, ht, ?_⟩
  cases rt with
  | message t =>
    obtain ⟨ta, hta, hfd⟩ := hsub
    exact ⟨ta, hext t ta hta, hfd⟩
  | enumTy t =>
    obtain ⟨ta, hta, hfd⟩ := hsub
    exact ⟨ta, hext t ta hta, hfd⟩
  | scalar => exact hsub
  | bytes => exact hsub

theorem foldContent (sch : Schema) (fuel a : Nat) (m : Option Message) :
    ∀ (fs : List FieldDescriptor) (st st' : DefBuilder) (obj : DefObj),
      st.defs.get? a = some obj →
      foldSteps (buildFieldStep (GetMaybeUnfrozenDef sch fuel) a m) st fs = .ok st' →
      ∃ fds, st'.defs.get? a = some { obj with fields := obj.fields ++ fds } ∧
        List.Forall₂ (fieldMatches st' m) fs fds := by
  intro fs
  induction fs with
  | nil =>
    intro st st' obj hget h
    rw [foldSteps_nil] at h
    simp only [Except.ok.injEq] at h
    subst h
    refine ⟨[], ?_, List.Forall₂.nil⟩
    simpa using hget
  | cons f fs ih =>
    intro st st' obj hget h
    have ha : a < st.defs.length := by
      rcases List.get?_eq_some.mp hget with ⟨hlt, _⟩
      exact hlt
    rw [foldSteps_cons] at h
    cases hstep : buildFieldStep (GetMaybeUnfrozenDef sch fuel) a m st f with
    | error e => rw [hstep] at h; cases h
    | ok st1 =>
      rw [hstep] at h
      -- analyse the step to obtain the appended FieldDef and its match
      unfold buildFieldStep NewFieldDef at hstep
      cases hr : resolveFieldType f m with
      | error e => rw [hr] at hstep; cases hstep
      | ok rt =>
        rw [hr] at hstep
        have main : ∃ fd, st1.defs.get? a = some { obj with fields := obj.fields ++ [fd] } ∧
            fieldMatches st1 m f fd := by
          cases rt with
          | scalar =>
            simp only [Except.ok.injEq] at hstep
            subst hstep
            exact ⟨⟨f.number, .scalar, none⟩, appendField_get?_eq st a _ obj hget,
              ⟨.scalar, hr, rfl, rfl, rfl⟩⟩
          | bytes =>
            simp only [Except.ok.injEq] at hstep
            subst hstep
            exact ⟨⟨f.number, .bytes, none⟩, appendField_get?_eq st a _ obj hget,
              ⟨.bytes, hr, rfl, rfl, rfl⟩⟩
          | message t =>
            simp only at hstep
            cases hrec : GetMaybeUnfrozenDef sch fuel t (m.bind fun inst => inst.subLookup f.number) st with
            | error e => rw [hrec] at hstep; cases hstep
            | ok p =>
              obtain ⟨ta, stx⟩ := p
              rw [hrec] at hstep
              simp only [Except.ok.injEq] at hstep
              subst hstep
              obtain ⟨sOK, hfind, hpres⟩ := buildSafe sch fuel _ _ _ _ _ hrec
              have hgx : stx.defs.get? a = some obj := by rw [hpres a ha]; exact hget
              refine ⟨⟨f.number, .message t, some ta⟩, appendField_get?_eq stx a _ obj hgx, ?_⟩
              refine ⟨.message t, hr, rfl, rfl, ⟨ta, ?_, rfl⟩⟩
              rw [appendField_FindInCache]
              exact hfind
          | enumTy t =>
            simp only at hstep
            cases hrec : GetMaybeUnfrozenDef sch fuel t none st with
            | error e => rw [hrec] at hstep; cases hstep
            | ok p =>
              obtain ⟨ta, stx⟩ := p
              rw [hrec] at hstep
              simp only [Except.ok.injEq] at hstep
              subst hstep
              obtain ⟨sOK, hfind, hpres⟩ := buildSafe sch fuel _ _ _ _ _ hrec
              have hgx : stx.defs.get? a = some obj := by rw [hpres a ha]; exact hget
              refine ⟨⟨f.number, .enumTy t, some ta⟩, appendField_get?_eq stx a _ obj hgx, ?_⟩
              refine ⟨.enumTy t, hr, rfl, rfl, ⟨ta, ?_, rfl⟩⟩
              rw [appendField_FindInCache]
              exact hfind
        obtain ⟨fd, hget1, hmatch1⟩ := main
        obtain ⟨fds, hget', hfa⟩ := ih st1 st' _ hget1 h
        obtain ⟨sOKrest, _⟩ := foldSafe sch fuel a m
          (fun d0 m0 st0 x st1 hh => buildSafe sch fuel d0 m0 st0 x st1 hh) fs st1 st' h
        refine ⟨fd :: fds, ?_, List.Forall₂.cons (fieldMatches_mono sOKrest.1 hmatch1) hfa⟩
        rw [hget']
        simp

theorem DefComplete_mono {sch : Schema} {st st' : DefBuilder} {k a : Nat}
    (hext : ∀ x v, st.FindInCache x = some v → st'.FindInCache x = some v)
    (hget : st'.defs.get? a = st.defs.get? a)
    (h : DefComplete sch st k a) : DefComplete sch st' k a := by
  obtain ⟨obj, hobj, hsome, hmsg, henum⟩ := h
  refine ⟨obj, by rw [hget]; exact hobj, hsome, ?_, henum⟩
  intro md hmd
  obtain ⟨hk, hfa⟩ := hmsg md hmd
  exact ⟨hk, hfa.imp fun a b hab => fieldMatches_mono hext hab⟩

theorem buildComplete (sch : Schema) :
    ∀ (fuel d : Nat) (st : DefBuilder) (a : Nat) (st' : DefBuilder) (P : List Nat),
      GetMaybeUnfrozenDef sch fuel d none st = .ok (a, st') →
      st.WFc → CompleteExcept sch st P → CompleteExcept sch st' P := by
  intro fuel
  induction fuel with
  | zero =>
    intro d st a st' P h
    rw [build_zero] at h
    cases h
  | succ fuel ih =>
    intro d st a st' P h hw hc
    cases hf : st.FindInCache d with
    | some a0 =>
      rw [build_succ_hit hf] at h
      simp only [Except.ok.injEq, Prod.mk.injEq] at h
      obtain ⟨rfl, rfl⟩ := h
      exact hc
    | none =>
      cases hl : sch.lookup d with
      | none => rw [build_succ_bad hf hl] at h; cases h
      | some x =>
        cases x with
        | inr ed =>
          rw [build_succ_miss_enum hf hl] at h
          simp only [Except.ok.injEq, Prod.mk.injEq] at h
          obtain ⟨rfl, rfl⟩ := h
          intro k v hk
          rw [insertAlloc_FindInCache] at hk
          by_cases hdk : d = k
          · subst hdk
            rw [if_pos rfl] at hk
            cases hk
            right
            refine ⟨⟨.enumK, false, []⟩, insertAlloc_get?_new st d .enumK,
              by rw [hl]; rfl, ?_, ?_⟩
            · intro md0 hmd
              rw [hl] at hmd
              simp at hmd
            · intro ed0 hed
              rfl
          · rw [if_neg hdk] at hk
            rcases hc k v hk with hP | hcomp
            · exact Or.inl hP
            · right
              have hv : v < st.defs.length := hw.2.2 _ (lookupL_mem hk)
              exact DefComplete_mono (stepOK_insertAlloc .enumK hf).1
                (insertAlloc_get?_old st d .enumK hv) hcomp
        | inl md =>
          rw [build_succ_miss_msg hf hl] at h
          cases hfold : foldSteps (buildFieldStep (GetMaybeUnfrozenDef sch fuel) st.defs.length none)
              (insertAlloc st d .msg) md.fields with
          | error e => rw [hfold] at h; cases h
          | ok st3 =>
            rw [hfold] at h
            simp only [Except.ok.injEq, Prod.mk.injEq] at h
            obtain ⟨rfl, rfl⟩ := h
            -- the bundled invariant carried through the per-field loop
            set a := st.defs.length with ha
            set st2 := insertAlloc st d .msg with hst2
            have hQ2 : CompleteExcept sch st2 (d :: P) ∧ st2.WFc ∧
                (∀ k, st2.FindInCache k = some a → k = d) ∧ a + 1 ≤ st2.defs.length := by
              refine ⟨?_, WFc_insertAlloc .msg hf hw, ?_, by rw [hst2, insertAlloc_defs_length]⟩
              · intro k v hk
                rw [hst2, insertAlloc_FindInCache] at hk
                by_cases hdk : d = k
                · subst hdk
                  exact Or.inl (List.mem_cons_self d P)
                · rw [if_neg hdk] at hk
                  rcases hc k v hk with hP | hcomp
                  · exact Or.inl (List.mem_cons_of_mem d hP)
                  · right
                    have hv : v < st.defs.length := hw.2.2 _ (lookupL_mem hk)
                    exact DefComplete_mono (stepOK_insertAlloc .msg hf).1
                      (insertAlloc_get?_old st d .msg hv) hcomp
              · intro k hk
                rw [hst2, insertAlloc_FindInCache] at hk
                by_cases hdk : d = k
                · exact hdk.symm
                · rw [if_neg hdk] at hk
                  have hv : a < st.defs.length := hw.2.2 _ (lookupL_mem hk)
                  omega
            have hQ3 : CompleteExcept sch st3 (d :: P) ∧ st3.WFc ∧
                (∀ k, st3.FindInCache k = some a → k = d) ∧ a + 1 ≤ st3.defs.length := by
              refine foldSteps_pres _ (fun s => CompleteExcept sch s (d :: P) ∧ s.WFc ∧
                (∀ k, s.FindInCache k = some a → k = d) ∧ a + 1 ≤ s.defs.length)
                ?_ md.fields st2 st3 hfold hQ2
              -- preservation of the bundled invariant by one field step
              intro s fdsc s' hstep hQ
              obtain ⟨hC, hW, hOnly, hLen⟩ := hQ
              have happQ : ∀ (t : DefBuilder) (fd : FieldDef),
                  (CompleteExcept sch t (d :: P) ∧ t.WFc ∧
                    (∀ k, t.FindInCache k = some a → k = d) ∧ a + 1 ≤ t.defs.length) →
                  CompleteExcept sch (t.appendField a fd) (d :: P) ∧
                    (t.appendField a fd).WFc ∧
                    (∀ k, (t.appendField a fd).FindInCache k = some a → k = d) ∧
                    a + 1 ≤ (t.appendField a fd).defs.length := by
                intro t fd ⟨tC, tW, tOnly, tLen⟩
                refine ⟨?_, WFc_appendField a fd tW, ?_, by rw [appendField_defs_length]; exact tLen⟩
                · intro k v hk
                  rw [appendField_FindInCache] at hk
                  by_cases hva : v = a
                  · subst hva
                    exact Or.inl (by rw [tOnly k hk]; exact List.mem_cons_self d P)
                  · rcases tC k v hk with hP | hcomp
                    · exact Or.inl hP
                    · right
                      refine DefComplete_mono ?_ (appendField_get?_ne t a fd v ?_) hcomp
                      · intro x w hx
                        rw [appendField_FindInCache]
                        exact hx
                      · omega
                · intro k hk
                  rw [appendField_FindInCache] at hk
                  exact tOnly k hk
              unfold buildFieldStep NewFieldDef at hstep
              cases hr : resolveFieldType fdsc none with
              | error e => rw [hr] at hstep; cases hstep
              | ok rt =>
                rw [hr] at hstep
                cases rt with
                | scalar =>
                  simp only [Except.ok.injEq] at hstep
                  subst hstep
                  exact happQ s _ ⟨hC, hW, hOnly, hLen⟩
                | bytes =>
                  simp only [Except.ok.injEq] at hstep
                  subst hstep
                  exact happQ s _ ⟨hC, hW, hOnly, hLen⟩
                | message t =>
                  simp only at hstep
                  cases hrec : GetMaybeUnfrozenDef sch fuel t
                      (Option.bind (none : Option Message) fun inst => inst.subLookup fdsc.number) s with
                  | error e => rw [hrec] at hstep; cases hstep
                  | ok p =>
                    obtain ⟨ta, sx⟩ := p
                    rw [hrec] at hstep
                    simp only [Except.ok.injEq] at hstep
                    subst hstep
                    obtain ⟨sOK, _, _⟩ := buildSafe sch fuel _ _ _ _ _ hrec
                    have hCx : CompleteExcept sch sx (d :: P) := ih t s ta sx (d :: P) hrec hW hC
                    have hWx : sx.WFc := buildWFc sch hrec hW
                    have hOx : ∀ k, sx.FindInCache k = some a → k = d := by
                      intro k hk
                      rcases sOK.2.2.2 k a hk with hold | hge
                      · exact hOnly k hold
                      · omega
                    exact happQ sx _ ⟨hCx, hWx, hOx, Nat.le_trans hLen sOK.2.1⟩
                | enumTy t =>
                  simp only at hstep
                  cases hrec : GetMaybeUnfrozenDef sch fuel t none s with
                  | error e => rw [hrec] at hstep; cases hstep
                  | ok p =>
                    obtain ⟨ta, sx⟩ := p
                    rw [hrec] at hstep
                    simp only [Except.ok.injEq] at hstep
                    subst hstep
                    obtain ⟨sOK, _, _⟩ := buildSafe sch fuel _ _ _ _ _ hrec
                    have hCx : CompleteExcept sch sx (d :: P) := ih t s ta sx (d :: P) hrec hW hC
                    have hWx : sx.WFc := buildWFc sch hrec hW
                    have hOx : ∀ k, sx.FindInCache k = some a → k = d := by
                      intro k hk
                      rcases sOK.2.2.2 k a hk with hold | hge
                      · exact hOnly k hold
                      · omega
                    exact happQ sx _ ⟨hCx, hWx, hOx, Nat.le_trans hLen sOK.2.1⟩
            -- d's own definition is now complete
            have hDC : DefComplete sch st3 d a := by
              obtain ⟨fds, hget3, hfa⟩ := foldContent sch fuel a none md.fields st2 st3
                ⟨.msg, false, []⟩ (insertAlloc_get?_new st d .msg) hfold
              refine ⟨⟨.msg, false, fds⟩, by simpa using hget3, by rw [hl]; rfl, ?_, ?_⟩
              · intro md0 hmd
                rw [hl] at hmd
                simp only [Option.some.injEq, Sum.inl.injEq] at hmd
                subst hmd
                exact ⟨rfl, hfa⟩
              · intro ed0 hed
                rw [hl] at hed
                simp at hed
            -- discharge the in-progress exception for d
            obtain ⟨sOKf, _⟩ := foldSafe sch fuel a none
              (fun d0 m0 st0 x st1 hh => buildSafe sch fuel d0 m0 st0 x st1 hh) md.fields st2 st3 hfold
            have hfind3 : st3.FindInCache d = some a := by
              apply sOKf.1
              rw [hst2, insertAlloc_FindInCache, if_pos rfl]
            intro k v hk
            rcases hQ3.1 k v hk with hP | hcomp
            · rcases List.mem_cons.mp hP with rfl | hPmem
              · rw [hfind3] at hk
                cases hk
                exact Or.inr hDC
              · exact Or.inl hPmem
            · exact Or.inr hcomp

theorem buildFieldStep_scalar {recur : Nat → Option Message → DefBuilder → Except BuildErr (Nat × DefBuilder)}
    {a : Nat} {m : Option Message} {st : DefBuilder} {f : FieldDescriptor}
    (hr : resolveFieldType f m = .ok .scalar) :
    buildFieldStep recur a m st f = .ok (st.appendField a ⟨f.number, .scalar, none⟩) := by
  unfold buildFieldStep NewFieldDef
  rw [hr]

theorem buildFieldStep_bytes {recur : Nat → Option Message → DefBuilder → Except BuildErr (Nat × DefBuilder)}
    {a : Nat} {m : Option Message} {st : DefBuilder} {f : FieldDescriptor}
    (hr : resolveFieldType f m = .ok .bytes) :
    buildFieldStep recur a m st f = .ok (st.appendField a ⟨f.number, .bytes, none⟩) := by
  unfold buildFieldStep NewFieldDef
  rw [hr]

theorem buildFieldStep_message {recur : Nat → Option Message → DefBuilder → Except BuildErr (Nat × DefBuilder)}
    {a : Nat} {m : Option Message} {st st1 : DefBuilder} {f : FieldDescriptor} {t ta : Nat}
    (hr : resolveFieldType f m = .ok (.message t))
    (hrec : recur t (m.bind fun inst => inst.subLookup f.number) st = .ok (ta, st1)) :
    buildFieldStep recur a m st f = .ok (st1.appendField a ⟨f.number, .message t, some ta⟩) := by
  unfold buildFieldStep NewFieldDef
  rw [hr]
  simp only
  rw [hrec]

theorem buildFieldStep_enum {recur : Nat → Option Message → DefBuilder → Except BuildErr (Nat × DefBuilder)}
    {a : Nat} {m : Option Message} {st st1 : DefBuilder} {f : FieldDescriptor} {t ta : Nat}
    (hr : resolveFieldType f m = .ok (.enumTy t))
    (hrec : recur t none st = .ok (ta, st1)) :
    buildFieldStep recur a m st f = .ok (st1.appendField a ⟨f.number, .enumTy t, some ta⟩) := by
  unfold buildFieldStep NewFieldDef
  rw [hr]
  simp only
  rw [hrec]

theorem resolveFieldType_none (f : FieldDescriptor) : resolveFieldType f none = .ok f.ftype := rfl

theorem lookup_inl_elim {sch : Schema} {k : Nat} {md : MessageDescriptor}
    (h : sch.lookup k = some (Sum.inl md)) : lookupL sch.messages k = some md := by
  unfold Schema.lookup at h
  cases hm : lookupL sch.messages k with
  | some md' =>
    rw [hm] at h
    simp only [Option.some.injEq, Sum.inl.injEq] at h
    rw [h]
  | none =>
    rw [hm] at h
    cases he : lookupL sch.enums k with
    | some ed => rw [he] at h; simp at h
    | none => rw [he] at h; simp at h

theorem schemaValid_field {sch : Schema} (hv : schemaValidB sch = true) {k : Nat}
    {md : MessageDescriptor} (hk : sch.lookup k = some (Sum.inl md)) {f : FieldDescriptor}
    (hf : f ∈ md.fields) {t : Nat} (ht : fieldTarget f = some t) :
    (sch.lookup t).isSome = true := by
  have hml := lookup_inl_elim hk
  have hmem : (k, md) ∈ sch.messages := lookupL_mem hml
  unfold schemaValidB at hv
  rw [List.all_eq_true] at hv
  have h2 := hv (k, md) hmem
  rw [List.all_eq_true] at h2
  have h3 := h2 f hf
  rw [ht] at h3
  exact h3

theorem uncached_appendField (sch : Schema) (st : DefBuilder) (a : Nat) (fd : FieldDef) :
    uncachedCount sch (st.appendField a fd) = uncachedCount sch st := by
  have hfun : (fun k => ((st.appendField a fd).FindInCache k).isNone) =
      (fun k => (st.FindInCache k).isNone) := by
    funext k
    rw [appendField_FindInCache]
  unfold uncachedCount
  rw [hfun]

theorem uncached_mono {sch : Schema} {st st' : DefBuilder}
    (hext : ∀ k v, st.FindInCache k = some v → st'.FindInCache k = some v) :
    uncachedCount sch st' ≤ uncachedCount sch st := by
  apply filter_length_mono
  intro x hx
  rw [Option.isNone_iff_eq_none] at hx ⊢
  cases hs : st.FindInCache x with
  | none => rfl
  | some v => rw [hext x v hs] at hx; cases hx

theorem uncached_insertAlloc_lt {sch : Schema} {st : DefBuilder} {d : Nat} (k : DefKind)
    (hf : st.FindInCache d = none) (hd : d ∈ sch.ids) :
    uncachedCount sch (insertAlloc st d k) < uncachedCount sch st := by
  apply filter_length_strict
  · intro x hx
    rw [Option.isNone_iff_eq_none] at hx ⊢
    cases hs : st.FindInCache x with
    | none => rfl
    | some v => rw [(stepOK_insertAlloc k hf).1 x v hs] at hx; cases hx
  · exact hd
  · rw [Option.isNone_iff_eq_none]
    exact hf
  · rw [Bool.eq_false_iff]
    intro hx
    rw [Option.isNone_iff_eq_none, insertAlloc_FindInCache, if_pos rfl] at hx
    cases hx

theorem foldOk (sch : Schema) (fuel a : Nat)
    (hIH : ∀ (d : Nat) (st : DefBuilder), (sch.lookup d).isSome = true →
      uncachedCount sch st + 1 ≤ fuel →
      ∃ x st', GetMaybeUnfrozenDef sch fuel d none st = .ok (x, st')) :
    ∀ (fs : List FieldDescriptor),
      (∀ f ∈ fs, ∀ t, fieldTarget f = some t → (sch.lookup t).isSome = true) →
      ∀ (st : DefBuilder), uncachedCount sch st + 1 ≤ fuel →
        ∃ st', foldSteps (buildFieldStep (GetMaybeUnfrozenDef sch fuel) a none) st fs = .ok st' := by
  intro fs
  induction fs with
  | nil => intro _ st _; exact ⟨st, foldSteps_nil _ _⟩
  | cons f fs ih =>
    intro htg st hfl
    have hstep : ∃ st1, buildFieldStep (GetMaybeUnfrozenDef sch fuel) a none st f = .ok st1 ∧
        uncachedCount sch st1 ≤ uncachedCount sch st := by
      cases hft : f.ftype with
      | scalar =>
        have hr : resolveFieldType f none = .ok .scalar := by rw [resolveFieldType_none, hft]
        refine ⟨_, buildFieldStep_scalar hr, ?_⟩
        rw [uncached_appendField]
      | bytes =>
        have hr : resolveFieldType f none = .ok .bytes := by rw [resolveFieldType_none, hft]
        refine ⟨_, buildFieldStep_bytes hr, ?_⟩
        rw [uncached_appendField]
      | message t =>
        have hr : resolveFieldType f none = .ok (.message t) := by rw [resolveFieldType_none, hft]
        have ht : fieldTarget f = some t := by unfold fieldTarget; rw [hft]
        obtain ⟨ta, st1, hrec⟩ := hIH t st (htg f (List.mem_cons_self f fs) t ht) hfl
        refine ⟨_, buildFieldStep_message hr hrec, ?_⟩
        rw [uncached_appendField]
        exact uncached_mono (buildSafe sch fuel _ _ _ _ _ hrec).1.1
      | enumTy t =>
        have hr : resolveFieldType f none = .ok (.enumTy t) := by rw [resolveFieldType_none, hft]
        have ht : fieldTarget f = some t := by unfold fieldTarget; rw [hft]
        obtain ⟨ta, st1, hrec⟩ := hIH t st (htg f (List.mem_cons_self f fs) t ht) hfl
        refine ⟨_, buildFieldStep_enum hr hrec, ?_⟩
        rw [uncached_appendField]
        exact uncached_mono (buildSafe sch fuel _ _ _ _ _ hrec).1.1
    obtain ⟨st1, hstepEq, hle⟩ := hstep
    obtain ⟨st', hrest⟩ := ih (fun g hg => htg g (List.mem_cons_of_mem f hg)) st1 (by omega)
    refine ⟨st', ?_⟩
    rw [foldSteps_cons, hstepEq]
    exact hrest

theorem buildOk (sch : Schema) (hv : schemaValidB sch = true) :
    ∀ (fuel d : Nat) (st : DefBuilder),
      (sch.lookup d).isSome = true →
      uncachedCount sch st + 1 ≤ fuel →
      ∃ a st', GetMaybeUnfrozenDef sch fuel d none st = .ok (a, st') := by
  intro fuel
  induction fuel with
  | zero => intro d st hd hfl; omega
  | succ fuel ih =>
    intro d st hd hfl
    cases hf : st.FindInCache d with
    | some a => exact ⟨a, st, build_succ_hit hf⟩
    | none =>
      cases hl : sch.lookup d with
      | none => rw [hl] at hd; cases hd
      | some x =>
        cases x with
        | inr ed => exact ⟨_, _, build_succ_miss_enum hf hl⟩
        | inl md =>
          have hdec : uncachedCount sch (insertAlloc st d .msg) + 1 ≤ fuel := by
            have hstrict := uncached_insertAlloc_lt DefKind.msg hf (mem_ids_of_lookup hl)
            omega
          obtain ⟨st3, hfold⟩ := foldOk sch fuel st.defs.length ih md.fields
            (fun f hfm t ht => schemaValid_field hv hl hfm ht) (insertAlloc st d .msg) hdec
          refine ⟨st.defs.length, st3, ?_⟩
          rw [build_succ_miss_msg hf hl, hfold]

theorem foldSteps_rel {σ α : Type} (step : σ → α → Except BuildErr σ) (R : σ → σ → Prop)
    (hrefl : ∀ s, R s s) (htrans : ∀ a b c, R a b → R b c → R a c)
    (hstep : ∀ s f s', step s f = .ok s' → R s s') :
    ∀ (fs : List α) (s s' : σ), foldSteps step s fs = .ok s' → R s s' := by
  intro fs
  induction fs with
  | nil =>
    intro s s' h
    rw [foldSteps_nil] at h
    simp only [Except.ok.injEq] at h
    subst h
    exact hrefl s
  | cons f fs ih =>
    intro s s' h
    rw [foldSteps_cons] at h
    cases hs : step s f with
    | error e => rw [hs] at h; cases h
    | ok s1 =>
      rw [hs] at h
      exact htrans _ _ _ (hstep s f s1 hs) (ih s1 s' h)

theorem hbuild_zero (db : DefBuilder) (md : Nat) (m : Message) (hs : HState) :
    GetMaybeUnfrozenWriteHandlers db 0 md m hs = .error .outOfFuel := rfl

theorem hbuild_succ_hit {db : DefBuilder} {fuel md : Nat} {m : Message} {hs : HState} {h : Nat}
    (hf : hs.FindInCache md = some h) :
    GetMaybeUnfrozenWriteHandlers db (Nat.succ fuel) md m hs = .ok (h, hs) := by
  simp [GetMaybeUnfrozenWriteHandlers, hf]

theorem hbuild_succ_bad {db : DefBuilder} {fuel md : Nat} {m : Message} {hs : HState}
    (hf : hs.FindInCache md = none) (hg : db.defs.get? md = none) :
    GetMaybeUnfrozenWriteHandlers db (Nat.succ fuel) md m hs = .error .badDescriptor := by
  have hg' : db.defs[md]? = none := by rw [← List.get?_eq_getElem?]; exact hg
  simp [GetMaybeUnfrozenWriteHandlers, hf, hg']

theorem hbuild_succ_miss {db : DefBuilder} {fuel md : Nat} {m : Message} {hs : HState}
    {dobj : DefObj} (hf : hs.FindInCache md = none) (hg : db.defs.get? md = some dobj) :
    GetMaybeUnfrozenWriteHandlers db (Nat.succ fuel) md m hs =
      (match foldSteps (handlerFieldStep (GetMaybeUnfrozenWriteHandlers db fuel) m)
          (insertAllocH hs md (dobj.fields.map FieldDef.number)) dobj.fields with
       | .error e => .error e
       | .ok hs3 => .ok (hs.handlers.length, hs3)) := by
  have hg' : db.defs[md]? = some dobj := by rw [← List.get?_eq_getElem?]; exact hg
  simp [GetMaybeUnfrozenWriteHandlers, hf, hg', HState.AddToCache, insertAllocH]

theorem insertAllocH_FindInCache (hs : HState) (md : Nat) (wd : List Nat) (x : Nat) :
    (insertAllocH hs md wd).FindInCache x =
      if md = x then some hs.handlers.length else hs.FindInCache x := rfl

theorem insertAllocH_length (hs : HState) (md : Nat) (wd : List Nat) :
    (insertAllocH hs md wd).handlers.length = hs.handlers.length + 1 := by
  simp [insertAllocH]

theorem insertAllocH_get?_old (hs : HState) (md : Nat) (wd : List Nat) {i : Nat}
    (hi : i < hs.handlers.length) :
    (insertAllocH hs md wd).handlers.get? i = hs.handlers.get? i := by
  simp only [insertAllocH]
  exact List.get?_append hi

theorem insertAllocH_get?_new (hs : HState) (md : Nat) (wd : List Nat) :
    (insertAllocH hs md wd).handlers.get? hs.handlers.length = some ⟨md, false, wd⟩ := by
  simp [insertAllocH]

theorem hstepOK_refl (hs : HState) : hstepOK hs hs :=
  ⟨fun _ _ h => h, Nat.le_refl _, fun _ h => h, fun _ _ => rfl⟩

theorem hstepOK_trans {h1 h2 h3 : HState} (a : hstepOK h1 h2) (b : hstepOK h2 h3) :
    hstepOK h1 h3 := by
  obtain ⟨c1, l1, f1, g1⟩ := a
  obtain ⟨c2, l2, f2, g2⟩ := b
  refine ⟨fun k v h => c2 k v (c1 k v h), Nat.le_trans l1 l2, fun x h => f2 x (f1 x h),
    fun i hi => ?_⟩
  rw [g2 i (Nat.lt_of_lt_of_le hi l1), g1 i hi]

theorem hstepOK_insertAllocH {hs : HState} {md : Nat} (wd : List Nat)
    (hf : hs.FindInCache md = none) : hstepOK hs (insertAllocH hs md wd) := by
  refine ⟨?_, ?_, ?_, ?_⟩
  · intro k v h
    rw [insertAllocH_FindInCache]
    by_cases hmd : md = k
    · subst hmd; rw [hf] at h; cases h
    · rw [if_neg hmd]; exact h
  · rw [insertAllocH_length]; omega
  · intro x h
    simp [insertAllocH]
    exact Or.inl h
  · intro i hi
    exact insertAllocH_get?_old hs md wd hi

theorem handlerStep_cases {recur : Nat → Message → HState → Except BuildErr (Nat × HState)}
    {m : Message} {hs : HState} {fd : FieldDef} {hs' : HState}
    (h : handlerFieldStep recur m hs fd = .ok hs') :
    hs' = hs ∨ ∃ t sub x, fd.ftype = .message t ∧ fd.subdef = some sub ∧
      recur sub ((m.subLookup fd.number).getD (defaultInstance t)) hs = .ok (x, hs') := by
  unfold handlerFieldStep at h
  cases hft : fd.ftype with
  | message t =>
    cases hsd : fd.subdef with
    | some sub =>
      rw [hft, hsd] at h
      simp only at h
      cases hrec : recur sub ((m.subLookup fd.number).getD (defaultInstance t)) hs with
      | error e => rw [hrec] at h; cases h
      | ok p =>
        obtain ⟨x, hsx⟩ := p
        rw [hrec] at h
        simp only [Except.ok.injEq] at h
        subst h
        exact Or.inr ⟨t, sub, x, rfl, rfl, hrec⟩
    | none =>
      rw [hft, hsd] at h
      simp only [Except.ok.injEq] at h
      exact Or.inl h.symm
  | scalar =>
    rw [hft] at h
    simp only [Except.ok.injEq] at h
    exact Or.inl h.symm
  | bytes =>
    rw [hft] at h
    simp only [Except.ok.injEq] at h
    exact Or.inl h.symm
  | enumTy t =>
    rw [hft] at h
    simp only [Except.ok.injEq] at h
    exact Or.inl h.symm

theorem handlerStep_err {recur : Nat → Message → HState → Except BuildErr (Nat × HState)}
    {m : Message} {hs : HState} {fd : FieldDef} {e : BuildErr}
    (h : handlerFieldStep recur m hs fd = .error e) :
    ∃ t sub, fd.ftype = .message t ∧ fd.subdef = some sub ∧
      recur sub ((m.subLookup fd.number).getD (defaultInstance t)) hs = .error e := by
  unfold handlerFieldStep at h
  cases hft : fd.ftype with
  | message t =>
    cases hsd : fd.subdef with
    | some sub =>
      rw [hft, hsd] at h
      simp only at h
      cases hrec : recur sub ((m.subLookup fd.number).getD (defaultInstance t)) hs with
      | error e' =>
        rw [hrec] at h
        simp only [Except.error.injEq] at h
        subst h
        exact ⟨t, sub, rfl, rfl, hrec⟩
      | ok p =>
        obtain ⟨x, hsx⟩ := p
        rw [hrec] at h
        cases h
    | none => rw [hft, hsd] at h; cases h
  | scalar => rw [hft] at h; cases h
  | bytes => rw [hft] at h; cases h
  | enumTy t => rw [hft] at h; cases h

theorem hbuildSafe (db : DefBuilder) :
    ∀ (fuel md : Nat) (m : Message) (hs : HState) (h : Nat) (hs' : HState),
      GetMaybeUnfrozenWriteHandlers db fuel md m hs = .ok (h, hs') →
      hstepOK hs hs' ∧ hs'.FindInCache md = some h := by
  intro fuel
  induction fuel with
  | zero =>
    intro md m hs h hs' heq
    rw [hbuild_zero] at heq
    cases heq
  | succ fuel ih =>
    intro md m hs h hs' heq
    cases hf : hs.FindInCache md with
    | some h0 =>
      rw [hbuild_succ_hit hf] at heq
      simp only [Except.ok.injEq, Prod.mk.injEq] at heq
      obtain ⟨rfl, rfl⟩ := heq
      exact ⟨hstepOK_refl hs, hf⟩
    | none =>
      cases hg : db.defs.get? md with
      | none => rw [hbuild_succ_bad hf hg] at heq; cases heq
      | some dobj =>
        rw [hbuild_succ_miss hf hg] at heq
        cases hfold : foldSteps (handlerFieldStep (GetMaybeUnfrozenWriteHandlers db fuel) m)
            (insertAllocH hs md (dobj.fields.map FieldDef.number)) dobj.fields with
        | error e => rw [hfold] at heq; cases heq
        | ok hs3 =>
          rw [hfold] at heq
          simp only [Except.ok.injEq, Prod.mk.injEq] at heq
          obtain ⟨rfl, rfl⟩ := heq
          have hrel : hstepOK (insertAllocH hs md (dobj.fields.map FieldDef.number)) hs3 := by
            refine foldSteps_rel _ hstepOK hstepOK_refl (fun _ _ _ hab hbc => hstepOK_trans hab hbc) ?_
              dobj.fields _ _ hfold
            intro s f s' hstep
            rcases handlerStep_cases hstep with rfl | ⟨t, sub, x, _, _, hrec⟩
            · exact hstepOK_refl _
            · exact (ih _ _ _ _ _ hrec).1
          refine ⟨hstepOK_trans (hstepOK_insertAllocH _ hf) hrel, ?_⟩
          apply hrel.1
          rw [insertAllocH_FindInCache, if_pos rfl]

theorem hbuildPres (db : DefBuilder) (Q : HState → Prop)
    (hQins : ∀ (hs : HState) (md : Nat) (wd : List Nat), hs.FindInCache md = none →
      Q hs → Q (insertAllocH hs md wd)) :
    ∀ (fuel md : Nat) (m : Message) (hs : HState) (h : Nat) (hs' : HState),
      GetMaybeUnfrozenWriteHandlers db fuel md m hs = .ok (h, hs') → Q hs → Q hs' := by
  intro fuel
  induction fuel with
  | zero =>
    intro md m hs h hs' heq
    rw [hbuild_zero] at heq
    cases heq
  | succ fuel ih =>
    intro md m hs h hs' heq hq
    cases hf : hs.FindInCache md with
    | some h0 =>
      rw [hbuild_succ_hit hf] at heq
      simp only [Except.ok.injEq, Prod.mk.injEq] at heq
      obtain ⟨rfl, rfl⟩ := heq
      exact hq
    | none =>
      cases hg : db.defs.get? md with
      | none => rw [hbuild_succ_bad hf hg] at heq; cases heq
      | some dobj =>
        rw [hbuild_succ_miss hf hg] at heq
        cases hfold : foldSteps (handlerFieldStep (GetMaybeUnfrozenWriteHandlers db fuel) m)
            (insertAllocH hs md (dobj.fields.map FieldDef.number)) dobj.fields with
        | error e => rw [hfold] at heq; cases heq
        | ok hs3 =>
          rw [hfold] at heq
          simp only [Except.ok.injEq, Prod.mk.injEq] at heq
          obtain ⟨rfl, rfl⟩ := heq
          refine foldSteps_pres _ Q ?_ dobj.fields _ _ hfold (hQins hs md _ hf hq)
          intro s f s' hstep hqs
          rcases handlerStep_cases hstep with rfl | ⟨t, sub, x, _, _, hrec⟩
          · exact hqs
          · exact ih _ _ _ _ _ hrec hqs

theorem WFcH_insertAllocH {hs : HState} {md : Nat} (wd : List Nat)
    (hf : hs.FindInCache md = none) (hw : hs.WFc) : (insertAllocH hs md wd).WFc := by
  obtain ⟨h1, h2, h3⟩ := hw
  refine ⟨?_, ?_, ?_⟩
  · simp only [insertAllocH, List.map_cons, List.nodup_cons]
    exact ⟨lookupL_eq_none_iff.mp hf, h1⟩
  · simp only [insertAllocH, List.map_cons, List.nodup_cons]
    refine ⟨?_, h2⟩
    intro hmem
    rcases List.mem_map.mp hmem with ⟨p, hp, hpv⟩
    have := h3 p hp
    omega
  · intro p hp
    rw [insertAllocH_length]
    simp only [insertAllocH, List.mem_cons] at hp
    rcases hp with rfl | hp
    · simp
    · have := h3 p hp
      omega

theorem InvH_insertAllocH (hs : HState) (md : Nat) (wd : List Nat) (hInv : hs.Inv) :
    (insertAllocH hs md wd).Inv := by
  intro i o h
  simp only [insertAllocH] at h
  rcases get?_append_singleton h with hold | ⟨rfl, rfl⟩
  · rcases hInv i o hold with hfz | hmem
    · exact Or.inl hfz
    · right
      simp only [insertAllocH, List.mem_append]
      exact Or.inl hmem
  · right
    simp [insertAllocH]

theorem hbuildWFc (db : DefBuilder) {fuel md : Nat} {m : Message} {hs : HState}
    {h : Nat} {hs' : HState}
    (heq : GetMaybeUnfrozenWriteHandlers db fuel md m hs = .ok (h, hs')) (hw : hs.WFc) :
    hs'.WFc :=
  hbuildPres db HState.WFc (fun hs0 md0 wd hf hq => WFcH_insertAllocH wd hf hq)
    fuel md m hs h hs' heq hw

theorem hbuildInv (db : DefBuilder) {fuel md : Nat} {m : Message} {hs : HState}
    {h : Nat} {hs' : HState}
    (heq : GetMaybeUnfrozenWriteHandlers db fuel md m hs = .ok (h, hs')) (hInv : hs.Inv) :
    hs'.Inv :=
  hbuildPres db HState.Inv (fun hs0 md0 wd _ hq => InvH_insertAllocH hs0 md0 wd hq)
    fuel md m hs h hs' heq hInv

theorem hNoAssert (db : DefBuilder) :
    ∀ (fuel md : Nat) (m : Message) (hs : HState),
      GetMaybeUnfrozenWriteHandlers db fuel md m hs ≠ .error .assertFailed := by
  intro fuel
  induction fuel with
  | zero =>
    intro md m hs h
    rw [hbuild_zero] at h
    simp at h
  | succ fuel ih =>
    intro md m hs h
    cases hf : hs.FindInCache md with
    | some h0 => rw [hbuild_succ_hit hf] at h; simp at h
    | none =>
      cases hg : db.defs.get? md with
      | none => rw [hbuild_succ_bad hf hg] at h; simp at h
      | some dobj =>
        rw [hbuild_succ_miss hf hg] at h
        cases hfold : foldSteps (handlerFieldStep (GetMaybeUnfrozenWriteHandlers db fuel) m)
            (insertAllocH hs md (dobj.fields.map FieldDef.number)) dobj.fields with
        | error e =>
          rw [hfold] at h
          simp only [Except.error.injEq] at h
          subst h
          revert hfold
          apply foldSteps_ne_err
          intro s f hstep
          obtain ⟨t, sub, _, _, hrec⟩ := handlerStep_err hstep
          exact ih _ _ _ hrec
        | ok hs3 =>
          rw [hfold] at h
          simp at h

theorem HFreeze_hcache (hs : HState) : hs.Freeze.hcache = hs.hcache := rfl

theorem HFreeze_FindInCache (hs : HState) (k : Nat) :
    hs.Freeze.FindInCache k = hs.FindInCache k := rfl

theorem HFreeze_to_freeze (hs : HState) : hs.Freeze.to_freeze = [] := rfl

theorem HFreeze_length (hs : HState) : hs.Freeze.handlers.length = hs.handlers.length :=
  markFrozenFrom_length _ _ _ _

theorem HFreeze_get? (hs : HState) (i : Nat) :
    hs.Freeze.handlers.get? i =
      (hs.handlers.get? i).map
        (fun o => if i ∈ hs.to_freeze then { o with frozen := true } else o) := by
  have h := markFrozenFrom_get? (fun o : HandlersObj => { o with frozen := true })
    hs.to_freeze hs.handlers 0 i
  simpa using h

theorem HFreeze_of_empty (hs : HState) (h : hs.to_freeze = []) : hs.Freeze = hs := by
  obtain ⟨hd, c, tf⟩ := hs
  simp only [HState.Freeze] at *
  subst h
  simp [markFrozenFrom_nil_tf]

theorem HFreeze_all_frozen {hs : HState} (hInv : hs.Inv) :
    ∀ i o, hs.Freeze.handlers.get? i = some o → o.frozen = true := by
  intro i o h
  rw [HFreeze_get?] at h
  cases hg : hs.handlers.get? i with
  | none => rw [hg] at h; cases h
  | some o0 =>
    rw [hg] at h
    simp only [Option.map_some', Option.some.injEq] at h
    by_cases hmem : i ∈ hs.to_freeze
    · rw [if_pos hmem] at h
      subst h
      rfl
    · rw [if_neg hmem] at h
      subst h
      rcases hInv i o0 hg with hfz | hm
      · exact hfz
      · exact absurd hm hmem

theorem GetMessageDef_ok_elim {sch : Schema} {fuel d : Nat} {st : DefBuilder} {a : Nat}
    {st' : DefBuilder} (h : DefBuilder.GetMessageDef sch fuel d st = .ok (a, st')) :
    ∃ st1, GetMaybeUnfrozenDef sch fuel d none st = .ok (a, st1) ∧ st' = st1.Freeze := by
  unfold DefBuilder.GetMessageDef at h
  cases hb : GetMaybeUnfrozenDef sch fuel d none st with
  | error e => rw [hb] at h; cases h
  | ok p =>
    obtain ⟨a0, st1⟩ := p
    rw [hb] at h
    simp only [Except.ok.injEq, Prod.mk.injEq] at h
    obtain ⟨rfl, rfl⟩ := h
    exact ⟨st1, rfl, rfl⟩

theorem GetEnumDef_ok_elim {sch : Schema} {fuel e : Nat} {st : DefBuilder} {a : Nat}
    {st' : DefBuilder} (h : DefBuilder.GetEnumDef sch fuel e st = .ok (a, st')) :
    ∃ st1, GetMaybeUnfrozenDef sch fuel e none st = .ok (a, st1) ∧ st' = st1.Freeze := by
  unfold DefBuilder.GetEnumDef at h
  cases hb : GetMaybeUnfrozenDef sch fuel e none st with
  | error er => rw [hb] at h; cases h
  | ok p =>
    obtain ⟨a0, st1⟩ := p
    rw [hb] at h
    simp only [Except.ok.injEq, Prod.mk.injEq] at h
    obtain ⟨rfl, rfl⟩ := h
    exact ⟨st1, rfl, rfl⟩

theorem GetMessageDefExpandWeak_ok_elim {sch : Schema} {fuel : Nat} {m : Message}
    {st : DefBuilder} {a : Nat} {st' : DefBuilder}
    (h : DefBuilder.GetMessageDefExpandWeak sch fuel m st = .ok (a, st')) :
    ∃ st1, GetMaybeUnfrozenDef sch fuel m.descriptor (some m) st = .ok (a, st1) ∧
      st' = st1.Freeze := by
  unfold DefBuilder.GetMessageDefExpandWeak at h
  cases hb : GetMaybeUnfrozenDef sch fuel m.descriptor (some m) st with
  | error e => rw [hb] at h; cases h
  | ok p =>
    obtain ⟨a0, st1⟩ := p
    rw [hb] at h
    simp only [Except.ok.injEq, Prod.mk.injEq] at h
    obtain ⟨rfl, rfl⟩ := h
    exact ⟨st1, rfl, rfl⟩

theorem GetWriteHandlers_ok_elim {sch : Schema} {fuel : Nat} {m : Message} {cc : CodeCache}
    {h : Nat} {cc' : CodeCache}
    (heq : CodeCache.GetWriteHandlers sch fuel m cc = .ok (h, cc')) :
    ∃ md db' hs', DefBuilder.GetMessageDefExpandWeak sch fuel m cc.db = .ok (md, db') ∧
      GetMaybeUnfrozenWriteHandlers db' fuel md m cc.hs = .ok (h, hs') ∧
      cc' = ⟨db', hs'.Freeze⟩ := by
  unfold CodeCache.GetWriteHandlers at heq
  cases hb : DefBuilder.GetMessageDefExpandWeak sch fuel m cc.db with
  | error e => rw [hb] at heq; cases heq
  | ok p =>
    obtain ⟨md, db'⟩ := p
    rw [hb] at heq
    simp only at heq
    cases hh : GetMaybeUnfrozenWriteHandlers db' fuel md m cc.hs with
    | error e => rw [hh] at heq; cases heq
    | ok q =>
      obtain ⟨h0, hs'⟩ := q
      rw [hh] at heq
      simp only [Except.ok.injEq, Prod.mk.injEq] at heq
      obtain ⟨rfl, rfl⟩ := heq
      exact ⟨md, db', hs', rfl, hh, rfl⟩

theorem GetMessageDef_repeat {sch : Schema} {fuel fuel' d : Nat} {st : DefBuilder} {a : Nat}
    {st' : DefBuilder} (h : DefBuilder.GetMessageDef sch fuel d st = .ok (a, st'))
    (hfl : 1 ≤ fuel') : DefBuilder.GetMessageDef sch fuel' d st' = .ok (a, st') := by
  obtain ⟨st1, hb, rfl⟩ := GetMessageDef_ok_elim h
  have hfind : st1.Freeze.FindInCache d = some a := by
    rw [Freeze_FindInCache]
    exact (buildSafe sch fuel _ _ _ _ _ hb).2.1
  obtain ⟨k, rfl⟩ : ∃ k, fuel' = k + 1 := ⟨fuel' - 1, by omega⟩
  unfold DefBuilder.GetMessageDef
  rw [build_succ_hit hfind]
  simp only
  rw [Freeze_of_empty _ (Freeze_to_freeze st1)]

theorem GetEnumDef_repeat {sch : Schema} {fuel fuel' e : Nat} {st : DefBuilder} {a : Nat}
    {st' : DefBuilder} (h : DefBuilder.GetEnumDef sch fuel e st = .ok (a, st'))
    (hfl : 1 ≤ fuel') : DefBuilder.GetEnumDef sch fuel' e st' = .ok (a, st') := by
  obtain ⟨st1, hb, rfl⟩ := GetEnumDef_ok_elim h
  have hfind : st1.Freeze.FindInCache e = some a := by
    rw [Freeze_FindInCache]
    exact (buildSafe sch fuel _ _ _ _ _ hb).2.1
  obtain ⟨k, rfl⟩ : ∃ k, fuel' = k + 1 := ⟨fuel' - 1, by omega⟩
  unfold DefBuilder.GetEnumDef
  rw [build_succ_hit hfind]
  simp only
  rw [Freeze_of_empty _ (Freeze_to_freeze st1)]

theorem GetMessageDefExpandWeak_repeat {sch : Schema} {fuel fuel' : Nat} {m m' : Message}
    {st : DefBuilder} {a : Nat} {st' : DefBuilder}
    (h : DefBuilder.GetMessageDefExpandWeak sch fuel m st = .ok (a, st'))
    (hd : m'.descriptor = m.descriptor) (hfl : 1 ≤ fuel') :
    DefBuilder.GetMessageDefExpandWeak sch fuel' m' st' = .ok (a, st') := by
  obtain ⟨st1, hb, rfl⟩ := GetMessageDefExpandWeak_ok_elim h
  have hfind : st1.Freeze.FindInCache m'.descriptor = some a := by
    rw [Freeze_FindInCache, hd]
    exact (buildSafe sch fuel _ _ _ _ _ hb).2.1
  obtain ⟨k, rfl⟩ : ∃ k, fuel' = k + 1 := ⟨fuel' - 1, by omega⟩
  unfold DefBuilder.GetMessageDefExpandWeak
  rw [build_succ_hit hfind]
  simp only
  rw [Freeze_of_empty _ (Freeze_to_freeze st1)]

theorem GetWriteHandlers_repeat {sch : Schema} {fuel fuel' : Nat} {m m' : Message}
    {cc : CodeCache} {h : Nat} {cc' : CodeCache}
    (heq : CodeCache.GetWriteHandlers sch fuel m cc = .ok (h, cc'))
    (hd : m'.descriptor = m.descriptor) (hfl : 1 ≤ fuel') :
    CodeCache.GetWriteHandlers sch fuel' m' cc' = .ok (h, cc') := by
  obtain ⟨md, db', hs', hb, hh, rfl⟩ := GetWriteHandlers_ok_elim heq
  have hdb : DefBuilder.GetMessageDefExpandWeak sch fuel' m' db' = .ok (md, db') :=
    GetMessageDefExpandWeak_repeat hb hd hfl
  have hfind : (hs'.Freeze).FindInCache md = some h := by
    rw [HFreeze_FindInCache]
    exact (hbuildSafe db' fuel _ _ _ _ _ hh).2
  obtain ⟨k, rfl⟩ : ∃ k, fuel' = k + 1 := ⟨fuel' - 1, by omega⟩
  unfold CodeCache.GetWriteHandlers
  simp only
  rw [hdb]
  simp only
  rw [hbuild_succ_hit hfind]
  simp only
  rw [HFreeze_of_empty _ (HFreeze_to_freeze hs')]

theorem Inv_init : DefBuilder.init.Inv := by
  intro i o h
  simp [DefBuilder.init] at h

theorem WFc_init : DefBuilder.init.WFc := by
  refine ⟨?_, ?_, ?_⟩ <;> simp [DefBuilder.init]

theorem HInv_init : HState.init.Inv := by
  intro i o h
  simp [HState.init] at h

theorem WFcH_init : HState.init.WFc := by
  refine ⟨?_, ?_, ?_⟩ <;> simp [HState.init]

theorem CompleteExcept_init (sch : Schema) (P : List Nat) :
    CompleteExcept sch DefBuilder.init P := by
  intro k a h
  simp [DefBuilder.FindInCache, DefBuilder.init, lookupL] at h

theorem WFc_Freeze {st : DefBuilder} (hw : st.WFc) : st.Freeze.WFc := by
  obtain ⟨h1, h2, h3⟩ := hw
  refine ⟨h1, h2, ?_⟩
  intro p hp
  rw [Freeze_defs_length]
  exact h3 p hp

theorem WFcH_Freeze {hs : HState} (hw : hs.WFc) : hs.Freeze.WFc := by
  obtain ⟨h1, h2, h3⟩ := hw
  refine ⟨h1, h2, ?_⟩
  intro p hp
  rw [HFreeze_length]
  exact h3 p hp

theorem forall₂_mem_left {α β : Type} {R : α → β → Prop} :
    ∀ {l1 : List α} {l2 : List β}, List.Forall₂ R l1 l2 → ∀ {a : α}, a ∈ l1 →
      ∃ b, b ∈ l2 ∧ R a b := by
  intro l1
  induction l1 with
  | nil => intro l2 h a ha; simp at ha
  | cons x xs ih =>
    intro l2 h a ha
    cases h with
    | cons hx hxs =>
      rcases List.mem_cons.mp ha with rfl | hmem
      · exact ⟨_, List.mem_cons_self _ _, hx⟩
      · obtain ⟨b, hb, hr⟩ := ih hxs hmem
        exact ⟨b, List.mem_cons_of_mem _ hb, hr⟩

theorem Freeze_get?_fields (st : DefBuilder) (i : Nat) {o : DefObj}
    (h : st.defs.get? i = some o) :
    ∃ o', st.Freeze.defs.get? i = some o' ∧ o'.fields = o.fields ∧ o'.kind = o.kind := by
  rw [Freeze_get?, h]
  by_cases hm : i ∈ st.to_freeze <;> simp [hm]

theorem resolveFieldType_weak_some {f : FieldDescriptor} {m : Message} {sub : Message}
    (hw : f.is_weak = true) (hs : m.subLookup f.number = some sub) :
    resolveFieldType f (some m) = .ok (.message sub.descriptor) := by
  simp [resolveFieldType, hw, hs]

theorem resolveFieldType_weak_none {f : FieldDescriptor} {m : Message}
    (hw : f.is_weak = true) (hs : m.subLookup f.number = none) :
    resolveFieldType f (some m) = .error .weakResolveFailed := by
  simp [resolveFieldType, hw, hs]

theorem ExpandWeak_NoAssert (sch : Schema) (fuel : Nat) (m : Message) (st : DefBuilder) :
    DefBuilder.GetMessageDefExpandWeak sch fuel m st ≠ .error .assertFailed := by
  intro h
  unfold DefBuilder.GetMessageDefExpandWeak at h
  cases hb : GetMaybeUnfrozenDef sch fuel m.descriptor (some m) st with
  | error e =>
    rw [hb] at h
    simp only [Except.error.injEq] at h
    subst h
    exact buildNoAssert sch fuel _ _ _ hb
  | ok p =>
    obtain ⟨a, st1⟩ := p
    rw [hb] at h
    simp at h

theorem GetMessageDef_NoAssert (sch : Schema) (fuel d : Nat) (st : DefBuilder) :
    DefBuilder.GetMessageDef sch fuel d st ≠ .error .assertFailed := by
  intro h
  unfold DefBuilder.GetMessageDef at h
  cases hb : GetMaybeUnfrozenDef sch fuel d none st with
  | error e =>
    rw [hb] at h
    simp only [Except.error.injEq] at h
    subst h
    exact buildNoAssert sch fuel _ _ _ hb
  | ok p =>
    obtain ⟨a, st1⟩ := p
    rw [hb] at h
    simp at h

theorem GetWriteHandlers_NoAssert (sch : Schema) (fuel : Nat) (m : Message) (cc : CodeCache) :
    CodeCache.GetWriteHandlers sch fuel m cc ≠ .error .assertFailed := by
  intro h
  unfold CodeCache.GetWriteHandlers at h
  cases hb : DefBuilder.GetMessageDefExpandWeak sch fuel m cc.db with
  | error e =>
    rw [hb] at h
    simp only [Except.error.injEq] at h
    subst h
    exact ExpandWeak_NoAssert sch fuel m cc.db hb
  | ok p =>
    obtain ⟨md, db'⟩ := p
    rw [hb] at h
    simp only at h
    cases hh : GetMaybeUnfrozenWriteHandlers db' fuel md m cc.hs with
    | error e =>
      rw [hh] at h
      simp only [Except.error.injEq] at h
      subst h
      exact hNoAssert db' fuel _ _ _ hh
    | ok q =>
      obtain ⟨h0, hs'⟩ := q
      rw [hh] at h
      simp at h

/-- C1: For every descriptor D, calling DefBuilder::GetMessageDef(D) (and likewise
GetEnumDef(D)) twice on the same DefBuilder instance returns the identical Definition
object both times: the first call creates and caches it, every later call with the
same descriptor identity returns the cached object (the same heap address), leaving
the builder state unchanged. -/
theorem GetMessageDef_GetEnumDef_idempotent :
    (∀ (sch : Schema) (fuel fuel' d : Nat) (st : DefBuilder) (a : Nat) (st' : DefBuilder),
      DefBuilder.GetMessageDef sch fuel d st = .ok (a, st') → 1 ≤ fuel' →
      DefBuilder.GetMessageDef sch fuel' d st' = .ok (a, st')) ∧
    (∀ (sch : Schema) (fuel fuel' e : Nat) (st : DefBuilder) (a : Nat) (st' : DefBuilder),
      DefBuilder.GetEnumDef sch fuel e st = .ok (a, st') → 1 ≤ fuel' →
      DefBuilder.GetEnumDef sch fuel' e st' = .ok (a, st')) :=
  ⟨fun _ _ _ _ _ _ _ h hf => GetMessageDef_repeat h hf,
   fun _ _ _ _ _ _ _ h hf => GetEnumDef_repeat h hf⟩

/-- Witness for C1: on the concrete schema with one self-referential message type
(resp. one enum type), the second call returns the first call's cached result
unchanged. -/
theorem GetMessageDef_GetEnumDef_idempotent_witness :
    DefBuilder.GetMessageDef ⟨[(0, ⟨[⟨1, .message 0, false⟩]⟩)], []⟩ 3 0
        ⟨[⟨.msg, true, [⟨1, .message 0, some 0⟩]⟩], [(0, 0)], []⟩ =
      .ok (0, ⟨[⟨.msg, true, [⟨1, .message 0, some 0⟩]⟩], [(0, 0)], []⟩) ∧
    DefBuilder.GetEnumDef ⟨[], [(7, ⟨[2]⟩)]⟩ 3 7 ⟨[⟨.enumK, true, []⟩], [(7, 0)], []⟩ =
      .ok (0, ⟨[⟨.enumK, true, []⟩], [(7, 0)], []⟩) :=
  ⟨GetMessageDef_GetEnumDef_idempotent.1 _ 3 3 0 DefBuilder.init 0 _ rfl (by omega),
   GetMessageDef_GetEnumDef_idempotent.2 _ 3 3 7 DefBuilder.init 0 _ rfl (by omega)⟩

/-- C6: TryGetFieldPrototype returns no value when the field is a scalar (neither a
statically-declared submessage nor weak), returns a value for a statically-declared
submessage field, returns a value for a weak field (whose live instance holds the
submessage) despite its non-submessage static type, and a non-NULL result despite a
non-submessage static type occurs precisely when the field is weak. -/
theorem TryGetFieldPrototype_signals_weakness :
    ∀ (m : Message) (f : FieldDescriptor),
      ((∀ t, f.ftype ≠ .message t) → f.is_weak = false → TryGetFieldPrototype m f = none) ∧
      (∀ t, f.ftype = .message t → (TryGetFieldPrototype m f).isSome = true) ∧
      (f.is_weak = true → (m.subLookup f.number).isSome = true →
        (TryGetFieldPrototype m f).isSome = true) ∧
      ((∀ t, f.ftype ≠ .message t) → (TryGetFieldPrototype m f).isSome = true →
        f.is_weak = true) := by
  intro m f
  refine ⟨?_, ?_, ?_, ?_⟩
  · intro hnm hw
    unfold TryGetFieldPrototype
    cases hft : f.ftype with
    | message t => exact absurd hft (hnm t)
    | scalar => simp [hw]
    | bytes => simp [hw]
    | enumTy t => simp [hw]
  · intro t hft
    unfold TryGetFieldPrototype
    rw [hft]
    rfl
  · intro hw hsub
    unfold TryGetFieldPrototype
    cases hft : f.ftype with
    | message t => rfl
    | scalar => simpa [hw] using hsub
    | bytes => simpa [hw] using hsub
    | enumTy t => simpa [hw] using hsub
  · intro hnm hres
    by_cases hw : f.is_weak = true
    · exact hw
    · exfalso
      rw [Bool.not_eq_true] at hw
      unfold TryGetFieldPrototype at hres
      cases hft : f.ftype with
      | message t => exact absurd hft (hnm t)
      | scalar => rw [hft] at hres; simp [hw] at hres
      | bytes => rw [hft] at hres; simp [hw] at hres
      | enumTy t => rw [hft] at hres; simp [hw] at hres

/-- Witness for C6: a plain scalar field yields none; a static submessage field
yields a value; a weak bytes field with a live submessage yields a value; and the
weak field is the only non-message-typed field yielding a value. -/
theorem TryGetFieldPrototype_signals_weakness_witness :
    TryGetFieldPrototype (.mk 0 []) ⟨1, .scalar, false⟩ = none ∧
    (TryGetFieldPrototype (.mk 0 []) ⟨2, .message 5, false⟩).isSome = true ∧
    (TryGetFieldPrototype (.mk 0 [(3, .mk 9 [])]) ⟨3, .bytes, true⟩).isSome = true ∧
    ((TryGetFieldPrototype (.mk 0 [(3, .mk 9 [])]) ⟨3, .bytes, true⟩).isSome = true →
      (⟨3, .bytes, true⟩ : FieldDescriptor).is_weak = true) :=
  ⟨(TryGetFieldPrototype_signals_weakness (.mk 0 []) ⟨1, .scalar, false⟩).1
      (fun t h => by cases h) rfl,
   (TryGetFieldPrototype_signals_weakness (.mk 0 []) ⟨2, .message 5, false⟩).2.1 5 rfl,
   (TryGetFieldPrototype_signals_weakness (.mk 0 [(3, .mk 9 [])]) ⟨3, .bytes, true⟩).2.2.1
      rfl rfl,
   fun _ => (TryGetFieldPrototype_signals_weakness (.mk 0 [(3, .mk 9 [])])
      ⟨3, .bytes, true⟩).2.2.2 (fun t h => by cases h)
      ((TryGetFieldPrototype_signals_weakness (.mk 0 [(3, .mk 9 [])]) ⟨3, .bytes, true⟩).2.2.1
        rfl rfl)⟩

/-- C7: the descriptor-to-Definition cache and the MessageDef-to-Handlers cache are
injective: an entry, once created, is never replaced (stability), the defensive
UPB_ASSERT in AddToCache fires exactly when an entry for the identity is already
present, and under the construction protocol (insert only after a failed
FindInCache) the assertion never fires on any execution. -/
theorem cache_injective_assert_never_fires :
    (∀ (st : DefBuilder) (d a : Nat),
      st.AddToCache d a = .error .assertFailed ↔ (st.FindInCache d).isSome = true) ∧
    (∀ (hs : HState) (md h : Nat),
      hs.AddToCache md h = .error .assertFailed ↔ (hs.FindInCache md).isSome = true) ∧
    (∀ (sch : Schema) (fuel d : Nat) (m : Option Message) (st : DefBuilder),
      GetMaybeUnfrozenDef sch fuel d m st ≠ .error .assertFailed) ∧
    (∀ (db : DefBuilder) (fuel md : Nat) (m : Message) (hs : HState),
      GetMaybeUnfrozenWriteHandlers db fuel md m hs ≠ .error .assertFailed) ∧
    (∀ (sch : Schema) (fuel : Nat) (m : Message) (cc : CodeCache),
      CodeCache.GetWriteHandlers sch fuel m cc ≠ .error .assertFailed) ∧
    (∀ (sch : Schema) (fuel d : Nat) (st : DefBuilder) (a : Nat) (st' : DefBuilder) (k v : Nat),
      DefBuilder.GetMessageDef sch fuel d st = .ok (a, st') →
      st.FindInCache k = some v → st'.FindInCache k = some v) := by
  refine ⟨?_, ?_, buildNoAssert, hNoAssert, GetWriteHandlers_NoAssert, ?_⟩
  · intro st d a
    unfold DefBuilder.AddToCache
    by_cases hf : (st.FindInCache d).isSome = true
    · simp [hf]
    · rw [Bool.not_eq_true] at hf
      simp [hf]
  · intro hs md h
    unfold HState.AddToCache
    by_cases hf : (hs.FindInCache md).isSome = true
    · simp [hf]
    · rw [Bool.not_eq_true] at hf
      simp [hf]
  · intro sch fuel d st a st' k v h hk
    obtain ⟨st1, hb, rfl⟩ := GetMessageDef_ok_elim h
    rw [Freeze_FindInCache]
    exact (buildSafe sch fuel _ _ _ _ _ hb).1.1 k v hk

/-- Witness for C7: on a concrete builder state holding descriptor 0, AddToCache
fires the assertion for 0 and not for 1, the construction functions never produce
the assertion failure on a concrete run, and a cached binding survives a
GetMessageDef call. -/
theorem cache_injective_assert_never_fires_witness :
    ((⟨[⟨.msg, true, []⟩], [(0, 0)], []⟩ : DefBuilder).AddToCache 0 1 = .error .assertFailed ↔
      (((⟨[⟨.msg, true, []⟩], [(0, 0)], []⟩ : DefBuilder).FindInCache 0).isSome = true)) ∧
    (GetMaybeUnfrozenDef ⟨[(0, ⟨[⟨1, .message 0, false⟩]⟩)], []⟩ 3 0 none DefBuilder.init ≠
      .error .assertFailed) ∧
    ((⟨[⟨.msg, true, [⟨1, .message 0, some 0⟩]⟩], [(0, 0)], []⟩ : DefBuilder).FindInCache 0 =
      some 0 →
      ∀ st', DefBuilder.GetMessageDef ⟨[(0, ⟨[⟨1, .message 0, false⟩]⟩)], []⟩ 3 0
          ⟨[⟨.msg, true, [⟨1, .message 0, some 0⟩]⟩], [(0, 0)], []⟩ = .ok (0, st') →
        st'.FindInCache 0 = some 0) :=
  ⟨cache_injective_assert_never_fires.1 ⟨[⟨.msg, true, []⟩], [(0, 0)], []⟩ 0 1,
   cache_injective_assert_never_fires.2.2.1 ⟨[(0, ⟨[⟨1, .message 0, false⟩]⟩)], []⟩ 3 0 none
     DefBuilder.init,
   fun hk st' h => cache_injective_assert_never_fires.2.2.2.2.2 _ 3 0 _ 0 st' 0 0 h hk⟩

/-- C9: in the UPB_GOOGLEPB_NOREFLECTION build configuration,
GetProto2FieldPrototype and TrySetWriteHandlers fail for every input with a
generic, unstructured failure (a plain thrown exception carrying no payload), and
never return a value. -/
theorem noreflection_generic_failure :
    (∀ (m : Message) (f : FieldDescriptor),
      NoReflection.GetProto2FieldPrototype m f = .error ()) ∧
    (∀ (pf : FieldDescriptor) (pr : Message) (uf : FieldDef) (h : Nat),
      NoReflection.TrySetWriteHandlers pf pr uf h = .error ()) :=
  ⟨fun _ _ => rfl, fun _ _ _ _ => rfl⟩

/-- C10: DefBuilder::NewMessageDef constructs a fresh DefBuilder for every call and
returns that builder's GetMessageDef result; the fresh builder starts with an empty
cache (so no caching persists across NewMessageDef calls and each call rebuilds,
allocating its own frozen Definition), unlike repeated GetMessageDef calls on one
builder, where the second call returns the first call's cached object with the
builder unchanged. -/
theorem NewMessageDef_fresh_builder :
    (∀ (sch : Schema) (fuel d : Nat),
      DefBuilder.NewMessageDef sch fuel d = DefBuilder.GetMessageDef sch fuel d DefBuilder.init) ∧
    (∀ d : Nat, DefBuilder.init.FindInCache d = none) ∧
    (∀ (sch : Schema) (fuel d : Nat) (a : Nat) (st' : DefBuilder),
      DefBuilder.NewMessageDef sch fuel d = .ok (a, st') →
      0 < st'.defs.length ∧ st'.FindInCache d = some a ∧
      (∀ i o, st'.defs.get? i = some o → o.frozen = true)) ∧
    (∀ (sch : Schema) (fuel fuel' d : Nat) (st : DefBuilder) (a : Nat) (st' : DefBuilder),
      DefBuilder.GetMessageDef sch fuel d st = .ok (a, st') → 1 ≤ fuel' →
      DefBuilder.GetMessageDef sch fuel' d st' = .ok (a, st')) := by
  refine ⟨fun _ _ _ => rfl, fun _ => rfl, ?_, fun _ _ _ _ _ _ _ h hf => GetMessageDef_repeat h hf⟩
  intro sch fuel d a st' h
  obtain ⟨st1, hb, rfl⟩ := GetMessageDef_ok_elim h
  have hw1 : st1.WFc := buildWFc sch hb WFc_init
  have hfind : st1.FindInCache d = some a := (buildSafe sch fuel _ _ _ _ _ hb).2.1
  have ha : a < st1.defs.length := hw1.2.2 _ (lookupL_mem hfind)
  refine ⟨?_, ?_, ?_⟩
  · rw [Freeze_defs_length]
    omega
  · rw [Freeze_FindInCache]
    exact hfind
  · exact Freeze_all_frozen (buildInv sch hb Inv_init)

/-- Witness for C10: on a concrete schema, NewMessageDef equals GetMessageDef on the
empty builder, the empty builder holds no cached entry for the descriptor, and the
call allocates a frozen definition. -/
theorem NewMessageDef_fresh_builder_witness :
    DefBuilder.NewMessageDef ⟨[(0, ⟨[⟨1, .message 0, false⟩]⟩)], []⟩ 3 0 =
      DefBuilder.GetMessageDef ⟨[(0, ⟨[⟨1, .message 0, false⟩]⟩)], []⟩ 3 0 DefBuilder.init ∧
    DefBuilder.init.FindInCache 0 = none ∧
    (0 < (⟨[⟨.msg, true, [⟨1, .message 0, some 0⟩]⟩], [(0, 0)], []⟩ : DefBuilder).defs.length ∧
      (⟨[⟨.msg, true, [⟨1, .message 0, some 0⟩]⟩], [(0, 0)], []⟩ : DefBuilder).FindInCache 0 =
        some 0 ∧
      (∀ i o, (⟨[⟨.msg, true, [⟨1, .message 0, some 0⟩]⟩], [(0, 0)], []⟩ : DefBuilder).defs.get? i =
        some o → o.frozen = true)) :=
  ⟨NewMessageDef_fresh_builder.1 _ 3 0,
   NewMessageDef_fresh_builder.2.1 0,
   NewMessageDef_fresh_builder.2.2.1 ⟨[(0, ⟨[⟨1, .message 0, false⟩]⟩)], []⟩ 3 0 0
     ⟨[⟨.msg, true, [⟨1, .message 0, some 0⟩]⟩], [(0, 0)], []⟩ rfl⟩

/-- C3: freezing is all-or-nothing: after any successful GetEnumDef, GetMessageDef,
GetMessageDefExpandWeak, or GetWriteHandlers request on a builder/cache satisfying
the construction invariant, every Definition (and Handlers) in the resulting state
is frozen — in particular the returned object is frozen, and no caller can observe
a mutually-referential set with only some members frozen or an object still under
construction. -/
theorem returned_definitions_and_handlers_frozen :
    (∀ (sch : Schema) (fuel e : Nat) (st : DefBuilder) (a : Nat) (st' : DefBuilder),
      st.Inv → DefBuilder.GetEnumDef sch fuel e st = .ok (a, st') →
      (∀ i o, st'.defs.get? i = some o → o.frozen = true) ∧
      (∀ o, st'.defs.get? a = some o → o.frozen = true)) ∧
    (∀ (sch : Schema) (fuel d : Nat) (st : DefBuilder) (a : Nat) (st' : DefBuilder),
      st.Inv → DefBuilder.GetMessageDef sch fuel d st = .ok (a, st') →
      (∀ i o, st'.defs.get? i = some o → o.frozen = true) ∧
      (∀ o, st'.defs.get? a = some o → o.frozen = true)) ∧
    (∀ (sch : Schema) (fuel : Nat) (m : Message) (st : DefBuilder) (a : Nat) (st' : DefBuilder),
      st.Inv → DefBuilder.GetMessageDefExpandWeak sch fuel m st = .ok (a, st') →
      (∀ i o, st'.defs.get? i = some o → o.frozen = true) ∧
      (∀ o, st'.defs.get? a = some o → o.frozen = true)) ∧
    (∀ (sch : Schema) (fuel : Nat) (m : Message) (cc : CodeCache) (h : Nat) (cc' : CodeCache),
      cc.db.Inv → cc.hs.Inv → CodeCache.GetWriteHandlers sch fuel m cc = .ok (h, cc') →
      (∀ i o, cc'.db.defs.get? i = some o → o.frozen = true) ∧
      (∀ i o, cc'.hs.handlers.get? i = some o → o.frozen = true) ∧
      (∀ o, cc'.hs.handlers.get? h = some o → o.frozen = true)) := by
  refine ⟨?_, ?_, ?_, ?_⟩
  · intro sch fuel e st a st' hInv h
    obtain ⟨st1, hb, rfl⟩ := GetEnumDef_ok_elim h
    have hall := Freeze_all_frozen (buildInv sch hb hInv)
    exact ⟨hall, fun o ho => hall a o ho⟩
  · intro sch fuel d st a st' hInv h
    obtain ⟨st1, hb, rfl⟩ := GetMessageDef_ok_elim h
    have hall := Freeze_all_frozen (buildInv sch hb hInv)
    exact ⟨hall, fun o ho => hall a o ho⟩
  · intro sch fuel m st a st' hInv h
    obtain ⟨st1, hb, rfl⟩ := GetMessageDefExpandWeak_ok_elim h
    have hall := Freeze_all_frozen (buildInv sch hb hInv)
    exact ⟨hall, fun o ho => hall a o ho⟩
  · intro sch fuel m cc h cc' hInvD hInvH heq
    obtain ⟨md, db', hs', hb, hh, rfl⟩ := GetWriteHandlers_ok_elim heq
    obtain ⟨st1, hbd, hdb'⟩ := GetMessageDefExpandWeak_ok_elim hb
    have hallD : ∀ i o, db'.defs.get? i = some o → o.frozen = true := by
      rw [hdb']
      exact Freeze_all_frozen (buildInv sch hbd hInvD)
    have hallH := HFreeze_all_frozen (hbuildInv db' hh hInvH)
    exact ⟨hallD, hallH, fun o ho => hallH h o ho⟩

/-- Witness for C3: concrete runs of all four request functions from fresh states
return fully frozen graphs. -/
theorem returned_definitions_and_handlers_frozen_witness :
    ((∀ i o, (⟨[⟨.enumK, true, []⟩], [(7, 0)], []⟩ : DefBuilder).defs.get? i = some o →
        o.frozen = true) ∧
      (∀ o, (⟨[⟨.enumK, true, []⟩], [(7, 0)], []⟩ : DefBuilder).defs.get? 0 = some o →
        o.frozen = true)) ∧
    ((∀ i o, (⟨[⟨.msg, true, [⟨1, .message 0, some 0⟩]⟩], [(0, 0)], []⟩ : DefBuilder).defs.get? i =
        some o → o.frozen = true) ∧
      (∀ o, (⟨[⟨.msg, true, [⟨1, .message 0, some 0⟩]⟩], [(0, 0)], []⟩ : DefBuilder).defs.get? 0 =
        some o → o.frozen = true)) ∧
    ((∀ i o, ((⟨⟨[⟨.msg, true, []⟩], [(0, 0)], []⟩, ⟨[⟨0, true, []⟩], [(0, 0)], []⟩⟩ :
        CodeCache)).db.defs.get? i = some o → o.frozen = true) ∧
      (∀ i o, ((⟨⟨[⟨.msg, true, []⟩], [(0, 0)], []⟩, ⟨[⟨0, true, []⟩], [(0, 0)], []⟩⟩ :
        CodeCache)).hs.handlers.get? i = some o → o.frozen = true) ∧
      (∀ o, ((⟨⟨[⟨.msg, true, []⟩], [(0, 0)], []⟩, ⟨[⟨0, true, []⟩], [(0, 0)], []⟩⟩ :
        CodeCache)).hs.handlers.get? 0 = some o → o.frozen = true)) :=
  ⟨returned_definitions_and_handlers_frozen.1 ⟨[], [(7, ⟨[2]⟩)]⟩ 3 7 DefBuilder.init 0 _
     Inv_init rfl,
   returned_definitions_and_handlers_frozen.2.1 ⟨[(0, ⟨[⟨1, .message 0, false⟩]⟩)], []⟩ 3 0
     DefBuilder.init 0 _ Inv_init rfl,
   returned_definitions_and_handlers_frozen.2.2.2 ⟨[(0, ⟨[]⟩), (1, ⟨[]⟩)], []⟩ 2 (.mk 0 [])
     CodeCache.init 0 _ Inv_init HInv_init rfl⟩

/-- C8: when construction of a requested top-level entity fails — e.g. a weak field
whose live-instance type cannot be resolved to a submessage — the in-flight build is
aborted with an explicit construction error: the request never returns a definition,
so neither the caller nor the cache receives a partially built entry; and every
successful request returns only fully frozen definitions, never a partially built
graph. -/
theorem construction_error_no_partial_graph :
    (∀ (sch : Schema) (fuel : Nat) (m : Message) (st : DefBuilder) (md : MessageDescriptor)
        (f : FieldDescriptor),
      sch.lookup m.descriptor = some (Sum.inl md) → f ∈ md.fields → f.is_weak = true →
      m.subLookup f.number = none → st.FindInCache m.descriptor = none →
      ∀ a st', DefBuilder.GetMessageDefExpandWeak sch fuel m st ≠ .ok (a, st')) ∧
    (∀ (sch : Schema) (fuel : Nat) (m : Message) (st : DefBuilder) (a : Nat) (st' : DefBuilder),
      st.Inv → DefBuilder.GetMessageDefExpandWeak sch fuel m st = .ok (a, st') →
      ∀ i o, st'.defs.get? i = some o → o.frozen = true) := by
  constructor
  · intro sch fuel m st md f hl hf hw hs hfind a st' heq
    obtain ⟨st1, hb, _⟩ := GetMessageDefExpandWeak_ok_elim heq
    cases fuel with
    | zero => rw [build_zero] at hb; cases hb
    | succ fuel =>
      rw [build_succ_miss_msg hfind hl] at hb
      cases hfold : foldSteps
          (buildFieldStep (GetMaybeUnfrozenDef sch fuel) st.defs.length (some m))
          (insertAlloc st m.descriptor .msg) md.fields with
      | error e => rw [hfold] at hb; cases hb
      | ok st3 =>
        refine foldSteps_err_of_mem _ ?_ md.fields hf _ st3 hfold
        intro s
        refine ⟨.weakResolveFailed, ?_⟩
        unfold buildFieldStep NewFieldDef
        rw [resolveFieldType_weak_none hw hs]
  · intro sch fuel m st a st' hInv h
    obtain ⟨st1, hb, rfl⟩ := GetMessageDefExpandWeak_ok_elim h
    exact Freeze_all_frozen (buildInv sch hb hInv)

/-- Witness for C8: on a concrete schema whose message has a weak field and a live
instance that does not hold the submessage, GetMessageDefExpandWeak returns no
definition; and a successful concrete run returns an all-frozen graph. -/
theorem construction_error_no_partial_graph_witness :
    (∀ a st', DefBuilder.GetMessageDefExpandWeak ⟨[(0, ⟨[⟨1, .bytes, true⟩]⟩)], []⟩ 3
      (.mk 0 []) DefBuilder.init ≠ .ok (a, st')) ∧
    (∀ i o, (⟨[⟨.msg, true, [⟨1, .message 0, some 0⟩]⟩], [(0, 0)], []⟩ : DefBuilder).defs.get? i =
      some o → o.frozen = true) :=
  ⟨fun a st' => construction_error_no_partial_graph.1 ⟨[(0, ⟨[⟨1, .bytes, true⟩]⟩)], []⟩ 3
     (.mk 0 []) DefBuilder.init ⟨[⟨1, .bytes, true⟩]⟩ ⟨1, .bytes, true⟩ rfl
     (List.mem_cons_self _ _) rfl rfl rfl a st',
   construction_error_no_partial_graph.2 ⟨[(0, ⟨[⟨1, .message 0, false⟩]⟩)], []⟩ 3
     (.mk 0 []) DefBuilder.init 0 _ Inv_init rfl⟩

/-- C4: CodeCache::GetWriteHandlers is keyed by Message-Definition identity, not
message-instance identity: a second call with any instance of the same message type
returns the identical Handlers object (and leaves the cache unchanged, so at most
one Handlers object exists per Message-Definition for the cache's lifetime —
existing cache entries are never replaced); two calls for distinct message types
return two distinct Handlers objects. -/
theorem GetWriteHandlers_cached_by_message_type :
    (∀ (sch : Schema) (fuel fuel' : Nat) (m m' : Message) (cc : CodeCache) (h : Nat)
        (cc' : CodeCache),
      CodeCache.GetWriteHandlers sch fuel m cc = .ok (h, cc') →
      m'.descriptor = m.descriptor → 1 ≤ fuel' →
      CodeCache.GetWriteHandlers sch fuel' m' cc' = .ok (h, cc')) ∧
    (∀ (sch : Schema) (fuel : Nat) (m : Message) (cc : CodeCache) (h : Nat) (cc' : CodeCache),
      CodeCache.GetWriteHandlers sch fuel m cc = .ok (h, cc') →
      ∀ k v, cc.hs.FindInCache k = some v → cc'.hs.FindInCache k = some v) ∧
    (∀ (sch : Schema) (fuel fuel' : Nat) (m1 m2 : Message) (cc : CodeCache) (h1 : Nat)
        (cc1 : CodeCache) (h2 : Nat) (cc2 : CodeCache),
      cc.db.WFc → cc.hs.WFc →
      CodeCache.GetWriteHandlers sch fuel m1 cc = .ok (h1, cc1) →
      CodeCache.GetWriteHandlers sch fuel' m2 cc1 = .ok (h2, cc2) →
      m1.descriptor ≠ m2.descriptor → h1 ≠ h2) := by
  refine ⟨fun _ _ _ _ _ _ _ _ heq hd hf => GetWriteHandlers_repeat heq hd hf, ?_, ?_⟩
  · intro sch fuel m cc h cc' heq k v hk
    obtain ⟨md, db', hs', hb, hh, rfl⟩ := GetWriteHandlers_ok_elim heq
    rw [show (⟨db', hs'.Freeze⟩ : CodeCache).hs = hs'.Freeze from rfl, HFreeze_FindInCache]
    exact (hbuildSafe db' fuel _ _ _ _ _ hh).1.1 k v hk
  · intro sch fuel fuel' m1 m2 cc h1 cc1 h2 cc2 hwd hwh heq1 heq2 hne
    obtain ⟨md1, db1, hs1, hb1, hh1, rfl⟩ := GetWriteHandlers_ok_elim heq1
    obtain ⟨md2, db2, hs2, hb2, hh2, rfl⟩ := GetWriteHandlers_ok_elim heq2
    obtain ⟨st1, hbd1, hdb1⟩ := GetMessageDefExpandWeak_ok_elim hb1
    obtain ⟨st2, hbd2, hdb2⟩ := GetMessageDefExpandWeak_ok_elim hb2
    -- the def cache of the final builder maps the two descriptors to distinct MessageDefs
    have hf1 : db1.FindInCache m1.descriptor = some md1 := by
      rw [hdb1, Freeze_FindInCache]
      exact (buildSafe sch fuel _ _ _ _ _ hbd1).2.1
    have hf2 : db2.FindInCache m2.descriptor = some md2 := by
      rw [hdb2, Freeze_FindInCache]
      exact (buildSafe sch fuel' _ _ _ _ _ hbd2).2.1
    have hf1' : db2.FindInCache m1.descriptor = some md1 := by
      rw [hdb2, Freeze_FindInCache]
      have := (buildSafe sch fuel' _ _ _ _ _ hbd2).1.1
      apply this
      rw [show (⟨db1, hs1.Freeze⟩ : CodeCache).db = db1 from rfl] at hbd2 ⊢
      exact hf1
    have hwd2 : db2.WFc := by
      rw [hdb2]
      apply WFc_Freeze
      apply buildWFc sch hbd2
      rw [show (⟨db1, hs1.Freeze⟩ : CodeCache).db = db1 from rfl]
      rw [hdb1]
      exact WFc_Freeze (buildWFc sch hbd1 hwd)
    have hmdne : md1 ≠ md2 := by
      unfold DefBuilder.FindInCache at hf1' hf2
      exact lookupL_inj hwd2.1 hwd2.2.1 hf1' hf2 hne
    -- the handlers cache of the final state maps the two MessageDefs to distinct Handlers
    have hg1 : hs2.FindInCache md1 = some h1 := by
      apply (hbuildSafe db2 fuel' _ _ _ _ _ hh2).1.1
      rw [show (⟨db1, hs1.Freeze⟩ : CodeCache).hs = hs1.Freeze from rfl, HFreeze_FindInCache]
      exact (hbuildSafe db1 fuel _ _ _ _ _ hh1).2
    have hg2 : hs2.FindInCache md2 = some h2 := (hbuildSafe db2 fuel' _ _ _ _ _ hh2).2
    have hwh2 : hs2.WFc := by
      apply hbuildWFc db2 hh2
      rw [show (⟨db1, hs1.Freeze⟩ : CodeCache).hs = hs1.Freeze from rfl]
      exact WFcH_Freeze (hbuildWFc db1 hh1 hwh)
    unfold HState.FindInCache at hg1 hg2
    exact lookupL_inj hwh2.1 hwh2.2.1 hg1 hg2 hmdne

/-- Witness for C4: on a schema with two message types, requesting handlers for an
instance of type 0 twice returns the identical Handlers object with the cache
unchanged, and requesting handlers for type 0 and then type 1 returns two distinct
Handlers objects. -/
theorem GetWriteHandlers_cached_by_message_type_witness :
    CodeCache.GetWriteHandlers ⟨[(0, ⟨[]⟩), (1, ⟨[]⟩)], []⟩ 2 (.mk 0 [])
        ⟨⟨[⟨.msg, true, []⟩], [(0, 0)], []⟩, ⟨[⟨0, true, []⟩], [(0, 0)], []⟩⟩ =
      .ok (0, ⟨⟨[⟨.msg, true, []⟩], [(0, 0)], []⟩, ⟨[⟨0, true, []⟩], [(0, 0)], []⟩⟩) ∧
    (0 : Nat) ≠ (1 : Nat) :=
  ⟨GetWriteHandlers_cached_by_message_type.1 ⟨[(0, ⟨[]⟩), (1, ⟨[]⟩)], []⟩ 2 2 (.mk 0 [])
     (.mk 0 []) CodeCache.init 0 _ rfl rfl (by omega),
   GetWriteHandlers_cached_by_message_type.2.2 ⟨[(0, ⟨[]⟩), (1, ⟨[]⟩)], []⟩ 2 2 (.mk 0 [])
     (.mk 1 []) CodeCache.init 0
     ⟨⟨[⟨.msg, true, []⟩], [(0, 0)], []⟩, ⟨[⟨0, true, []⟩], [(0, 0)], []⟩⟩ 1
     ⟨⟨[⟨.msg, true, []⟩, ⟨.msg, true, []⟩], [(1, 1), (0, 0)], []⟩,
      ⟨[⟨0, true, []⟩, ⟨1, true, []⟩], [(1, 1), (0, 0)], []⟩⟩
     WFc_init WFcH_init rfl rfl (by decide)⟩

/-- C5: for every weak field and every supplied live instance whose weak field holds
a concrete submessage of type X, GetMessageDefExpandWeak (building the type for the
first time) yields a field definition whose recorded submessage type is X, taken
from the live instance's runtime type information, not the static descriptor's
placeholder scalar-bytes type. -/
theorem GetMessageDefExpandWeak_resolves_weak_field :
    ∀ (sch : Schema) (fuel : Nat) (m : Message) (st : DefBuilder) (md : MessageDescriptor)
      (f : FieldDescriptor) (sub : Message) (a : Nat) (st' : DefBuilder),
      st.FindInCache m.descriptor = none →
      sch.lookup m.descriptor = some (Sum.inl md) →
      f ∈ md.fields → f.is_weak = true → m.subLookup f.number = some sub →
      DefBuilder.GetMessageDefExpandWeak sch fuel m st = .ok (a, st') →
      ∃ obj fd, st'.defs.get? a = some obj ∧ fd ∈ obj.fields ∧ fd.number = f.number ∧
        fd.ftype = .message sub.descriptor ∧ fd.ftype ≠ .bytes := by
  intro sch fuel m st md f sub a st' hfind hl hmem hw hsub heq
  obtain ⟨st1, hb, rfl⟩ := GetMessageDefExpandWeak_ok_elim heq
  cases fuel with
  | zero => rw [build_zero] at hb; cases hb
  | succ fuel =>
    rw [build_succ_miss_msg hfind hl] at hb
    cases hfold : foldSteps (buildFieldStep (GetMaybeUnfrozenDef sch fuel) st.defs.length (some m))
        (insertAlloc st m.descriptor .msg) md.fields with
    | error e => rw [hfold] at hb; cases hb
    | ok st3 =>
      rw [hfold] at hb
      simp only [Except.ok.injEq, Prod.mk.injEq] at hb
      obtain ⟨rfl, rfl⟩ := hb
      obtain ⟨fds, hget3, hfa⟩ := foldContent sch fuel st.defs.length (some m) md.fields
        (insertAlloc st m.descriptor .msg) st3 ⟨.msg, false, []⟩
        (insertAlloc_get?_new st m.descriptor .msg) hfold
      obtain ⟨fd, hfd, hmatch⟩ := forall₂_mem_left hfa hmem
      obtain ⟨rt, hr, hnum, hft, _⟩ := hmatch
      rw [resolveFieldType_weak_some hw hsub] at hr
      simp only [Except.ok.injEq] at hr
      subst hr
      obtain ⟨o', ho', hofields, _⟩ :=
        Freeze_get?_fields st3 st.defs.length (o := ⟨.msg, false, fds⟩) (by simpa using hget3)
      refine ⟨o', fd, ho', ?_, hnum, hft, ?_⟩
      · rw [hofields]
        exact hfd
      · rw [hft]
        intro hcontra
        cases hcontra

/-- Witness for C5: a message type whose only field is weak (static type BYTES),
built from a live instance holding a submessage of type 9, records the field as a
submessage of type 9 rather than BYTES. -/
theorem GetMessageDefExpandWeak_resolves_weak_field_witness :
    ∃ obj fd,
      (⟨[⟨.msg, true, [⟨1, .message 9, some 1⟩]⟩, ⟨.msg, true, []⟩], [(9, 1), (0, 0)], []⟩ :
        DefBuilder).defs.get? 0 = some obj ∧
      fd ∈ obj.fields ∧ fd.number = 1 ∧ fd.ftype = .message 9 ∧ fd.ftype ≠ .bytes :=
  GetMessageDefExpandWeak_resolves_weak_field ⟨[(0, ⟨[⟨1, .bytes, true⟩]⟩), (9, ⟨[]⟩)], []⟩ 3
    (.mk 0 [(1, .mk 9 [])]) DefBuilder.init ⟨[⟨1, .bytes, true⟩]⟩ ⟨1, .bytes, true⟩
    (.mk 9 []) 0 _ rfl rfl (List.mem_cons_self _ _) rfl rfl rfl

/-- C2: for every well-formed schema and message descriptor d — in particular for
schemas whose message graph contains a direct self-reference (a field of type d
inside d) or an indirect cycle — GetMessageDef on a fresh builder terminates with
enough fuel for one pass over the pool (recursion is short-circuited by the cache
placeholder inserted before recursing), returns a graph in which every reachable
Definition is frozen, and every message-typed field of every constructed Definition
refers to the cached Definition object of its target descriptor: a self-referential
field's target is reference-equal to the enclosing message's own Definition, not a
duplicate. -/
theorem GetMessageDef_cycle_terminates_frozen :
    ∀ (sch : Schema) (fuel d : Nat) (md : MessageDescriptor),
      schemaValidB sch = true →
      sch.lookup d = some (Sum.inl md) →
      sch.ids.length + 1 ≤ fuel →
      ∃ a st', DefBuilder.GetMessageDef sch fuel d DefBuilder.init = .ok (a, st') ∧
        (∀ i o, st'.defs.get? i = some o → o.frozen = true) ∧
        st'.FindInCache d = some a ∧
        (∀ f ∈ md.fields, f.ftype = .message d →
          ∃ obj fd, st'.defs.get? a = some obj ∧ fd ∈ obj.fields ∧
            fd.number = f.number ∧ fd.subdef = some a) ∧
        (∀ e me ae, sch.lookup e = some (Sum.inl me) → st'.FindInCache e = some ae →
          ∀ f ∈ me.fields, ∀ t ta, f.ftype = .message t → st'.FindInCache t = some ta →
            ∃ obj fd, st'.defs.get? ae = some obj ∧ fd ∈ obj.fields ∧
              fd.number = f.number ∧ fd.subdef = some ta) := by
  intro sch fuel d md hv hl hfl
  have hu : uncachedCount sch DefBuilder.init + 1 ≤ fuel := by
    have hle : uncachedCount sch DefBuilder.init ≤ sch.ids.length :=
      List.length_filter_le _ _
    omega
  obtain ⟨a, st1, hb⟩ := buildOk sch hv fuel d DefBuilder.init (by rw [hl]; rfl) hu
  have hfind1 : st1.FindInCache d = some a := (buildSafe sch fuel _ _ _ _ _ hb).2.1
  have hcomp : CompleteExcept sch st1 [] :=
    buildComplete sch fuel d DefBuilder.init a st1 [] hb WFc_init (CompleteExcept_init sch [])
  have hgen : ∀ e me ae, sch.lookup e = some (Sum.inl me) →
      st1.Freeze.FindInCache e = some ae →
      ∀ f ∈ me.fields, ∀ t ta, f.ftype = .message t → st1.Freeze.FindInCache t = some ta →
        ∃ obj fd, st1.Freeze.defs.get? ae = some obj ∧ fd ∈ obj.fields ∧
          fd.number = f.number ∧ fd.subdef = some ta := by
    intro e me ae hle hfe f hf t ta hft hfta
    rw [Freeze_FindInCache] at hfe hfta
    rcases hcomp e ae hfe with hP | hDC
    · cases hP
    · obtain ⟨obj, hobj, hsome, hmsg, henum⟩ := hDC
      obtain ⟨hkind, hfa⟩ := hmsg me hle
      obtain ⟨fd, hfd, hmatch⟩ := forall₂_mem_left hfa hf
      obtain ⟨rt, hr, hnum, hftd, hsub⟩ := hmatch
      rw [resolveFieldType_none] at hr
      simp only [Except.ok.injEq] at hr
      subst hr
      rw [hft] at hsub
      obtain ⟨ta', hta', hfdsub⟩ := hsub
      have hta : ta' = ta := by
        rw [hta'] at hfta
        exact (Option.some.injEq _ _).mp hfta
      subst hta
      obtain ⟨o', ho', hofields, _⟩ := Freeze_get?_fields st1 ae hobj
      refine ⟨o', fd, ho', ?_, hnum, hfdsub⟩
      rw [hofields]
      exact hfd
  have hfindFr : st1.Freeze.FindInCache d = some a := by
    rw [Freeze_FindInCache]
    exact hfind1
  refine ⟨a, st1.Freeze, ?_, Freeze_all_frozen (buildInv sch hb Inv_init), hfindFr, ?_, hgen⟩
  · unfold DefBuilder.GetMessageDef
    rw [hb]
  · intro f hf hft
    exact hgen d md a hl hfindFr f hf d a hft hfindFr

/-- Witness for C2: the schema with message 0 = { field 1 : message 0 (direct
self-reference), field 2 : message 5 } and message 5 = { field 3 : message 0 }
(indirect cycle 0 -> 5 -> 0); construction from the empty builder succeeds with
fuel one more than the pool size and satisfies all frozen/reference-equality
conclusions. -/
theorem GetMessageDef_cycle_terminates_frozen_witness :
    ∃ a st',
      DefBuilder.GetMessageDef
          ⟨[(0, ⟨[⟨1, .message 0, false⟩, ⟨2, .message 5, false⟩]⟩),
            (5, ⟨[⟨3, .message 0, false⟩]⟩)], []⟩ 3 0 DefBuilder.init = .ok (a, st') ∧
      (∀ i o, st'.defs.get? i = some o → o.frozen = true) ∧
      st'.FindInCache 0 = some a ∧
      (∀ f ∈ (⟨[⟨1, .message 0, false⟩, ⟨2, .message 5, false⟩]⟩ :
          MessageDescriptor).fields, f.ftype = .message 0 →
        ∃ obj fd, st'.defs.get? a = some obj ∧ fd ∈ obj.fields ∧
          fd.number = f.number ∧ fd.subdef = some a) ∧
      (∀ e me ae,
        Schema.lookup ⟨[(0, ⟨[⟨1, .message 0, false⟩, ⟨2, .message 5, false⟩]⟩),
          (5, ⟨[⟨3, .message 0, false⟩]⟩)], []⟩ e = some (Sum.inl me) →
        st'.FindInCache e = some ae →
        ∀ f ∈ me.fields, ∀ t ta, f.ftype = .message t → st'.FindInCache t = some ta →
          ∃ obj fd, st'.defs.get? ae = some obj ∧ fd ∈ obj.fields ∧
            fd.number = f.number ∧ fd.subdef = some ta) :=
  GetMessageDef_cycle_terminates_frozen
    ⟨[(0, ⟨[⟨1, .message 0, false⟩, ⟨2, .message 5, false⟩]⟩),
      (5, ⟨[⟨3, .message 0, false⟩]⟩)], []⟩ 3 0
    ⟨[⟨1, .message 0, false⟩, ⟨2, .message 5, false⟩]⟩ (by decide) (by decide) (by decide)

end UpbBridge
